import Mathlib

/-!
Verification development for the quantum-OS runtime: shallow embeddings of
the hybrid scheduler (kernel_services/src/task.rs), the adaptive hybrid
transport (quantum_runtime/src/webtransport.rs), the async execution engine
(quantum_runtime/src/async_runtime.rs), the circuit executor
(quantum_runtime/src/execution.rs), the measurement-streaming fabric
(quantum_runtime/src/streaming.rs), and the dense state-vector kernels
(quantum_runtime/src/gate_operations.rs, state_backend.rs), together with
theorems settling the specification's claims about them.

Machine floating-point amplitudes (f64) are modelled by exact real and
complex numbers; machine integer counters are modelled by Nat (no value in
these components approaches 2^64).
-/

/-! ## Hybrid scheduler (kernel_services/src/task.rs) -/

/-- ProcessPriority from task.rs: Idle < Low < Normal < High < Realtime,
with the Rust discriminants 0..4 used by `Ord`. -/
inductive ProcessPriority
  | Idle
  | Low
  | Normal
  | High
  | Realtime
deriving DecidableEq

/-- Rust derives `Ord` on ProcessPriority from the discriminant values. -/
def ProcessPriority.toNat : ProcessPriority → ℕ
  | .Idle => 0
  | .Low => 1
  | .Normal => 2
  | .High => 3
  | .Realtime => 4

/-- QuantumJobPriority from task.rs: Background < Normal < Elevated < Critical
with the Rust discriminants 0..3. -/
inductive QuantumJobPriority
  | Background
  | Normal
  | Elevated
  | Critical
deriving DecidableEq

/-- Rust derives `Ord` on QuantumJobPriority from the discriminant values. -/
def QuantumJobPriority.toNat : QuantumJobPriority → ℕ
  | .Background => 0
  | .Normal => 1
  | .Elevated => 2
  | .Critical => 3

/-- ProcessContext, restricted to the fields the scheduler queues inspect:
`sort_classical_queue` compares only `priority`; `process_id` stands for the
identity of the record (id, name, state, capabilities, ...). -/
structure ProcessContext where
  process_id : ℕ
  priority : ProcessPriority
deriving DecidableEq

/-- QuantumJobContext, restricted to the fields the scheduler queues inspect:
`sort_quantum_queue` compares only `priority`; `job_id` stands for the
identity of the record (job handle, circuit program, timestamps, ...). -/
structure QuantumJobContext where
  job_id : ℕ
  priority : QuantumJobPriority
deriving DecidableEq

/-- Insertion of `a` into a descending-priority list, placing `a` before the
first element of the same or lower priority.  Building block of the stable
sort used to model Rust's (stable) `slice::sort_by`. -/
def orderedInsertDesc {α : Type} (pr : α → ℕ) (a : α) : List α → List α
  | [] => [a]
  | b :: l => if pr b ≤ pr a then a :: b :: l else b :: orderedInsertDesc pr a l

/-- Stable sort by descending priority.  `Vec::sort_by(|a, b|
b.priority.cmp(&a.priority))` in task.rs is a stable sort for the total
preorder given by the priority discriminant; a stable sort is extensionally
unique for a total preorder, so it is modelled by stable insertion sort. -/
def insertionSortDesc {α : Type} (pr : α → ℕ) (l : List α) : List α :=
  l.foldr (orderedInsertDesc pr) []

/-- HybridScheduler::sort_quantum_queue (task.rs lines 282-287): drain the
queue, stable-sort by descending priority, refill. -/
def sort_quantum_queue (l : List QuantumJobContext) : List QuantumJobContext :=
  insertionSortDesc (fun j => j.priority.toNat) l

/-- HybridScheduler::submit_quantum_job (task.rs lines 230-234): push_back
then sort_quantum_queue. -/
def submit_quantum_job (q : List QuantumJobContext) (job : QuantumJobContext) :
    List QuantumJobContext :=
  sort_quantum_queue (q ++ [job])

/-- HybridScheduler::sort_classical_queue (task.rs lines 276-280). -/
def sort_classical_queue (l : List ProcessContext) : List ProcessContext :=
  insertionSortDesc (fun p => p.priority.toNat) l

/-- HybridScheduler::enqueue_process (task.rs lines 219-223): push_back then
sort_classical_queue. -/
def enqueue_process (q : List ProcessContext) (p : ProcessContext) :
    List ProcessContext :=
  sort_classical_queue (q ++ [p])

/-- Boolean test that a list is ordered by descending priority. -/
def sortedDescB {α : Type} (pr : α → ℕ) : List α → Bool
  | [] => true
  | [_] => true
  | a :: b :: l => decide (pr b ≤ pr a) && sortedDescB pr (b :: l)

/-- Insertion position described by the spec: the new entry goes just after
the last entry of the same or higher priority. -/
def insertAfterLastSameOrHigher {α : Type} (pr : α → ℕ) (a : α) (q : List α) :
    List α :=
  q.takeWhile (fun b => decide (pr a ≤ pr b)) ++
    a :: q.dropWhile (fun b => decide (pr a ≤ pr b))

theorem sortedDescB_tail {α : Type} (pr : α → ℕ) (b : α) (l : List α)
    (h : sortedDescB pr (b :: l) = true) : sortedDescB pr l = true := by
  cases l with
  | nil => rfl
  | cons c l' =>
    simp only [sortedDescB, Bool.and_eq_true] at h
    exact h.2

theorem sortedDescB_head_ge {α : Type} (pr : α → ℕ) (l : List α) (b : α)
    (h : sortedDescB pr (b :: l) = true) : ∀ y ∈ l, pr y ≤ pr b := by
  induction l generalizing b with
  | nil => intro y hy; cases hy
  | cons c l' ih =>
    intro y hy
    have h' : pr c ≤ pr b ∧ sortedDescB pr (c :: l') = true := by
      simpa [sortedDescB] using h
    rcases List.mem_cons.mp hy with rfl | hy'
    · exact h'.1
    · exact le_trans (ih c h'.2 y hy') h'.1

theorem sortedDescB_cons {α : Type} (pr : α → ℕ) (b : α) (l : List α)
    (hl : sortedDescB pr l = true)
    (hb : ∀ y, l.head? = some y → pr y ≤ pr b) :
    sortedDescB pr (b :: l) = true := by
  cases l with
  | nil => rfl
  | cons c l' =>
    simp only [sortedDescB, Bool.and_eq_true, decide_eq_true_eq]
    exact ⟨hb c rfl, hl⟩

theorem orderedInsertDesc_head_cases {α : Type} (pr : α → ℕ) (a : α) (l : List α) :
    (orderedInsertDesc pr a l).head? = some a ∨
      (orderedInsertDesc pr a l).head? = l.head? := by
  cases l with
  | nil => left; rfl
  | cons b l' =>
    by_cases hba : pr b ≤ pr a
    · left; simp [orderedInsertDesc, hba]
    · right; simp [orderedInsertDesc, hba]

theorem orderedInsertDesc_sorted {α : Type} (pr : α → ℕ) (a : α) (l : List α)
    (hl : sortedDescB pr l = true) :
    sortedDescB pr (orderedInsertDesc pr a l) = true := by
  induction l with
  | nil => rfl
  | cons b l' ih =>
    by_cases hba : pr b ≤ pr a
    · have he : orderedInsertDesc pr a (b :: l') = a :: b :: l' := by
        simp [orderedInsertDesc, hba]
      rw [he]
      exact sortedDescB_cons pr a (b :: l') hl
        (by intro y hy; cases hy; exact hba)
    · have hab : pr a ≤ pr b := le_of_not_le hba
      have he : orderedInsertDesc pr a (b :: l') = b :: orderedInsertDesc pr a l' := by
        simp [orderedInsertDesc, hba]
      rw [he]
      have htail : sortedDescB pr (orderedInsertDesc pr a l') = true :=
        ih (sortedDescB_tail pr b l' hl)
      refine sortedDescB_cons pr b _ htail ?_
      intro y hy
      rcases orderedInsertDesc_head_cases pr a l' with h1 | h2
      · rw [h1] at hy
        cases hy
        exact hab
      · rw [h2] at hy
        cases l' with
        | nil => cases hy
        | cons c l'' =>
          have hcy : c = y := by simpa using hy
          subst hcy
          exact sortedDescB_head_ge pr (c :: l'') b hl c (List.mem_cons_self c l'')

theorem insertionSortDesc_sorted {α : Type} (pr : α → ℕ) (l : List α) :
    sortedDescB pr (insertionSortDesc pr l) = true := by
  induction l with
  | nil => rfl
  | cons a l' ih => exact orderedInsertDesc_sorted pr a _ ih

theorem mem_of_mem_takeWhileD {α : Type} (p : α → Bool) (l : List α) (x : α)
    (hx : x ∈ l.takeWhile p) : x ∈ l := by
  induction l with
  | nil => simp [List.takeWhile] at hx
  | cons b l' ih =>
    by_cases hb : p b = true
    · simp only [List.takeWhile, hb] at hx
      rcases List.mem_cons.mp hx with rfl | hx'
      · exact List.mem_cons_self _ _
      · exact List.mem_cons_of_mem _ (ih hx')
    · simp only [List.takeWhile, Bool.not_eq_true] at hx
      rw [Bool.not_eq_true] at hb
      simp [hb] at hx

/-- Stable sort of a sorted queue with one element appended equals the
spec-described insertion just after the last same-or-higher-priority entry. -/
theorem insertionSortDesc_append_singleton {α : Type} (pr : α → ℕ)
    (q : List α) (a : α) (hq : sortedDescB pr q = true) :
    insertionSortDesc pr (q ++ [a]) = insertAfterLastSameOrHigher pr a q := by
  induction q with
  | nil => rfl
  | cons b q' ih =>
    have hq' : sortedDescB pr q' = true := sortedDescB_tail pr b q' hq
    have hall : ∀ y ∈ q', pr y ≤ pr b := sortedDescB_head_ge pr q' b hq
    have hstep : insertionSortDesc pr ((b :: q') ++ [a]) =
        orderedInsertDesc pr b (insertionSortDesc pr (q' ++ [a])) := rfl
    rw [hstep, ih hq']
    by_cases hab : pr a ≤ pr b
    · -- the head keeps its place before the new entry
      have htwc : (b :: q').takeWhile (fun x => decide (pr a ≤ pr x)) =
          b :: q'.takeWhile (fun x => decide (pr a ≤ pr x)) :=
        List.takeWhile_cons_of_pos (by simpa using hab)
      have hdwc : (b :: q').dropWhile (fun x => decide (pr a ≤ pr x)) =
          q'.dropWhile (fun x => decide (pr a ≤ pr x)) :=
        List.dropWhile_cons_of_pos (by simpa using hab)
      rw [insertAfterLastSameOrHigher, insertAfterLastSameOrHigher, htwc, hdwc,
        List.cons_append]
      cases htw : q'.takeWhile (fun x => decide (pr a ≤ pr x)) with
      | nil => simp [orderedInsertDesc, hab]
      | cons x rest =>
        have hxq : x ∈ q' := by
          refine mem_of_mem_takeWhileD (fun z => decide (pr a ≤ pr z)) q' x ?_
          rw [htw]; exact List.mem_cons_self x rest
        have hxb : pr x ≤ pr b := hall x hxq
        simp [orderedInsertDesc, hxb]
    · -- the new entry outranks the head and lands in front
      have htw : q'.takeWhile (fun x => decide (pr a ≤ pr x)) = [] := by
        cases hc : q' with
        | nil => rfl
        | cons c l'' =>
          have hcb : pr c ≤ pr b := hall c (by rw [hc]; exact List.mem_cons_self c l'')
          have hac : ¬ pr a ≤ pr c := by omega
          exact List.takeWhile_cons_of_neg (by simpa using hac)
      have hdw : q'.dropWhile (fun x => decide (pr a ≤ pr x)) = q' := by
        cases hc : q' with
        | nil => rfl
        | cons c l'' =>
          have hcb : pr c ≤ pr b := hall c (by rw [hc]; exact List.mem_cons_self c l'')
          have hac : ¬ pr a ≤ pr c := by omega
          exact List.dropWhile_cons_of_neg (by simpa using hac)
      have htwc : (b :: q').takeWhile (fun x => decide (pr a ≤ pr x)) = [] :=
        List.takeWhile_cons_of_neg (by simpa using hab)
      have hdwc : (b :: q').dropWhile (fun x => decide (pr a ≤ pr x)) = b :: q' :=
        List.dropWhile_cons_of_neg (by simpa using hab)
      rw [insertAfterLastSameOrHigher, insertAfterLastSameOrHigher, htw, hdw,
        htwc, hdwc, List.nil_append, List.nil_append]
      have hrw : orderedInsertDesc pr b (a :: q') =
          a :: orderedInsertDesc pr b q' := by
        simp [orderedInsertDesc, hab]
      rw [hrw]
      cases hc : q' with
      | nil => rfl
      | cons c l'' =>
        have hcb : pr c ≤ pr b := hall c (by rw [hc]; exact List.mem_cons_self c l'')
        simp [orderedInsertDesc, hcb]

/-- Claim C7: enqueue on either scheduler queue keeps the queue ordered by
descending priority with FIFO preserved among equal priorities: on a sorted
queue, push-then-stable-sort equals insertion of the new entry just after the
last entry of the same or higher priority (which keeps all previously queued
entries in their relative order), and every queue reachable by enqueues from
the empty queue is sorted by descending priority. -/
theorem C7_scheduler_queue_stable_priority_order :
    (∀ (q : List QuantumJobContext) (job : QuantumJobContext),
        sortedDescB (fun j => j.priority.toNat) q = true →
        submit_quantum_job q job =
          insertAfterLastSameOrHigher (fun j => j.priority.toNat) job q) ∧
    (∀ jobs : List QuantumJobContext,
        sortedDescB (fun j => j.priority.toNat)
          (jobs.foldl submit_quantum_job []) = true) ∧
    (∀ (q : List ProcessContext) (p : ProcessContext),
        sortedDescB (fun r => r.priority.toNat) q = true →
        enqueue_process q p =
          insertAfterLastSameOrHigher (fun r => r.priority.toNat) p q) ∧
    (∀ ps : List ProcessContext,
        sortedDescB (fun r => r.priority.toNat)
          (ps.foldl enqueue_process []) = true) := by
  refine ⟨?_, ?_, ?_, ?_⟩
  · intro q job hq
    exact insertionSortDesc_append_singleton _ q job hq
  · intro jobs
    have h : ∀ (js : List QuantumJobContext) (q : List QuantumJobContext),
        sortedDescB (fun j => j.priority.toNat) q = true →
        sortedDescB (fun j => j.priority.toNat) (js.foldl submit_quantum_job q) = true := by
      intro js
      induction js with
      | nil => intro q hq; exact hq
      | cons j js' ih =>
        intro q _
        exact ih _ (insertionSortDesc_sorted _ _)
    exact h jobs [] rfl
  · intro q p hq
    exact insertionSortDesc_append_singleton _ q p hq
  · intro ps
    have h : ∀ (js : List ProcessContext) (q : List ProcessContext),
        sortedDescB (fun r => r.priority.toNat) q = true →
        sortedDescB (fun r => r.priority.toNat) (js.foldl enqueue_process q) = true := by
      intro js
      induction js with
      | nil => intro q hq; exact hq
      | cons p ps' ih =>
        intro q _
        exact ih _ (insertionSortDesc_sorted _ _)
    exact h ps [] rfl

/-! ## Adaptive hybrid transport (quantum_runtime/src/webtransport.rs) -/

/-- TransportMode from webtransport.rs. -/
inductive TransportMode
  | Datagram
  | Stream
  | Hybrid
deriving DecidableEq

/-- AdaptationConfig, restricted to the two loss thresholds that
`evaluate_and_adapt` reads.  The f64 loss-rate arithmetic is modelled with
exact rationals. -/
structure AdaptationConfig where
  loss_threshold_to_stream : ℚ
  loss_threshold_to_datagram : ℚ

/-- Default for AdaptationConfig (webtransport.rs lines 453-463): upgrade at
5% loss, downgrade at 1% loss. -/
def AdaptationConfig.default : AdaptationConfig :=
  { loss_threshold_to_stream := 5 / 100, loss_threshold_to_datagram := 1 / 100 }

/-- HybridTransport::evaluate_and_adapt (webtransport.rs lines 533-561) as a
pure step on the observed datagram loss rate, current mode and the
`mode_switches` counter; returns the new mode and counter. -/
def evaluate_and_adapt (cfg : AdaptationConfig) (current_mode : TransportMode)
    (loss_rate : ℚ) (mode_switches : ℕ) : TransportMode × ℕ :=
  let new_mode :=
    match current_mode with
    | .Datagram =>
        if loss_rate > cfg.loss_threshold_to_stream then .Stream else .Datagram
    | .Stream =>
        if loss_rate < cfg.loss_threshold_to_datagram then .Datagram else .Stream
    | .Hybrid => .Hybrid
  if new_mode ≠ current_mode then (new_mode, mode_switches + 1)
  else (new_mode, mode_switches)

/-- HybridTransport::send_measurement (webtransport.rs lines 501-531),
projected onto which channels carry the event: the pair records (sent on the
reliable stream channel, sent on the datagram channel). -/
def send_measurement (mode : TransportMode) (critical : Bool) : Bool × Bool :=
  match mode with
  | .Datagram => (false, true)
  | .Stream => (true, false)
  | .Hybrid => (critical, true)

/-- Claim C8: one evaluation switches Datagram→Stream exactly when the loss
rate exceeds the upgrade threshold (default 5/100), Stream→Datagram exactly
when the loss rate is below the downgrade threshold (default 1/100), leaves
Hybrid unchanged, and bumps mode_switches by exactly 1 on an actual switch and
0 otherwise; in Hybrid mode a critical measurement goes out on the stream
channel and is also broadcast on the datagram channel. -/
theorem C8_adaptive_transport_mode_selection :
    ∀ (cfg : AdaptationConfig) (loss : ℚ) (k : ℕ),
      ((evaluate_and_adapt cfg .Datagram loss k).1 =
          if cfg.loss_threshold_to_stream < loss then .Stream else .Datagram) ∧
      ((evaluate_and_adapt cfg .Stream loss k).1 =
          if loss < cfg.loss_threshold_to_datagram then .Datagram else .Stream) ∧
      ((evaluate_and_adapt cfg .Hybrid loss k).1 = .Hybrid) ∧
      (∀ mode, (evaluate_and_adapt cfg mode loss k).2 =
          if (evaluate_and_adapt cfg mode loss k).1 ≠ mode then k + 1 else k) ∧
      (AdaptationConfig.default.loss_threshold_to_stream = 5 / 100 ∧
        AdaptationConfig.default.loss_threshold_to_datagram = 1 / 100) ∧
      send_measurement .Hybrid true = (true, true) := by
  intro cfg loss k
  refine ⟨?_, ?_, ?_, ?_, ⟨rfl, rfl⟩, rfl⟩
  · by_cases h : loss > cfg.loss_threshold_to_stream
    · simp [evaluate_and_adapt, h]
    · simp [evaluate_and_adapt, h]
  · by_cases h : loss < cfg.loss_threshold_to_datagram
    · simp [evaluate_and_adapt, h]
    · simp [evaluate_and_adapt, h]
  · simp [evaluate_and_adapt]
  · intro mode
    cases mode with
    | Datagram =>
      by_cases h : loss > cfg.loss_threshold_to_stream
      · simp [evaluate_and_adapt, h]
      · simp [evaluate_and_adapt, h]
    | Stream =>
      by_cases h : loss < cfg.loss_threshold_to_datagram
      · simp [evaluate_and_adapt, h]
      · simp [evaluate_and_adapt, h]
    | Hybrid => simp [evaluate_and_adapt]

/-! ## Async execution engine (quantum_runtime/src/async_runtime.rs) -/

/-- JobStatus from async_runtime.rs. -/
inductive JobStatus
  | Queued
  | Running
  | Completed
  | Failed
  | Cancelled
deriving DecidableEq

/-- What the spawned worker posts on the job's oneshot result channel. -/
inductive WorkerOutcome
  | resultOk
  | resultCancelled
  | resultAsyncError
deriving DecidableEq

/-- The worker spawned by AsyncQuantumExecutionEngine::submit_job
(async_runtime.rs lines 132-179), with its interleaving captured by the value
the single `cancel_token.is_cancelled()` read (line 143) returns and by
whether the blocking `executor.execute` task joins normally.

The token flag is read exactly once, before the status is set to Running;
after that point `cancel_while_running` is never consulted again: it is an
argument only to exhibit that it cannot influence the outcome.  The returned
pair is (final value of the job's status cell, value posted on the result
channel).  If the token was already set, the worker posts Cancelled and
returns without ever touching the status cell, which stays Queued. -/
def submit_job_worker (cancelled_at_check : Bool) (cancel_while_running : Bool)
    (execute_join_ok : Bool) : JobStatus × WorkerOutcome :=
  if cancelled_at_check then
    (JobStatus.Queued, WorkerOutcome.resultCancelled)
  else if execute_join_ok then
    (JobStatus.Completed, WorkerOutcome.resultOk)
  else
    (JobStatus.Failed, WorkerOutcome.resultAsyncError)

/-- Claim C3 counterexample: a job that has reached `running` (the token
check at the start of the worker saw an unset token) and whose cancellation
token is then set while it runs finishes with status Completed and its result
channel carries the execution result — not status Cancelled with a Cancelled
result as the claim requires. -/
theorem C3_counterexample_running_job_cancel_ignored :
    submit_job_worker false true true = (JobStatus.Completed, WorkerOutcome.resultOk) ∧
      JobStatus.Completed ≠ JobStatus.Cancelled ∧
      WorkerOutcome.resultOk ≠ WorkerOutcome.resultCancelled := by
  exact ⟨rfl, by decide, by decide⟩

/-- Claim C3 (amended): cancellation is observed only at the single token
check before execution starts.  If the token is set at that check the result
channel yields Cancelled and the status cell is never written (it stays
Queued); otherwise the job runs to completion and its status becomes
Completed (or Failed if the blocking task fails to join), regardless of any
cancellation requested while it runs — the flag set during the run is never
read, so cancelling a running or completed job never changes status or
result. -/
theorem C3_amended_cancel_only_before_start :
    ∀ (c r r' e : Bool),
      submit_job_worker c r e = submit_job_worker c r' e ∧
      submit_job_worker true r e = (JobStatus.Queued, WorkerOutcome.resultCancelled) ∧
      submit_job_worker false r true = (JobStatus.Completed, WorkerOutcome.resultOk) ∧
      (submit_job_worker c r e).1 ≠ JobStatus.Cancelled := by
  intro c r r' e
  refine ⟨rfl, rfl, rfl, ?_⟩
  cases c <;> cases e <;> simp [submit_job_worker]

/-! ## Measurement streaming fabric (quantum_runtime/src/streaming.rs) -/

/-- MeasurementEvent (measurement.rs), restricted to the fields streaming.rs
reads: job id, shot index and the measured bitstring (the key produced by
`bitstring_as_string`).  Timestamps are irrelevant to the claims. -/
structure MeasurementEvent where
  job_id : ℕ
  shot_index : ℕ
  bits : List ℕ
deriving DecidableEq

/-- StatisticsUpdatePayload, restricted to its discrete fields; the
f64-valued entropy and top-bitstring probabilities are not consulted by any
claim. -/
structure StatisticsUpdatePayload where
  job_id : ℕ
  total_shots : ℕ
  completed_shots : ℕ
deriving DecidableEq

/-- StreamingMessage (streaming.rs lines 34-47), restricted to the variants
the modelled operations construct. -/
inductive StreamingMessage
  | measurementEvent (job_id shot_index : ℕ) (bits : List ℕ)
  | statisticsUpdate (p : StatisticsUpdatePayload)
  | jobStarted (job_id total_shots : ℕ)
  | jobCompleted (job_id total_shots execution_time_ms : ℕ)
      (final_statistics : StatisticsUpdatePayload)
deriving DecidableEq

/-- ReplayBuffer (streaming.rs lines 397-455). -/
structure ReplayBuffer where
  buffer : List StreamingMessage
  capacity : ℕ
  message_id : ℕ
deriving DecidableEq

/-- ReplayBuffer::push (streaming.rs lines 413-419): evict the oldest entry
when full, append, bump the message id. -/
def ReplayBuffer.push (rb : ReplayBuffer) (msg : StreamingMessage) : ReplayBuffer :=
  let buf := if rb.buffer.length ≥ rb.capacity then rb.buffer.drop 1 else rb.buffer
  { rb with buffer := buf ++ [msg], message_id := rb.message_id + 1 }

/-- StreamAggregator (streaming.rs lines 461-537); the bitstring→count map is
an association list keyed by the bitstring. -/
structure StreamAggregator where
  bitstring_counts : List (List ℕ × ℕ)
  total_count : ℕ
  emit_interval : ℕ
  since_last_emit : ℕ
deriving DecidableEq

/-- `entry(bitstring).or_insert(0) += 1` on the association-list model. -/
def bumpCount : List (List ℕ × ℕ) → List ℕ → List (List ℕ × ℕ)
  | [], b => [(b, 1)]
  | (k, v) :: rest, b =>
      if k = b then (k, v + 1) :: rest else (k, v) :: bumpCount rest b

/-- StreamAggregator::add_measurement (streaming.rs lines 479-491): count the
bitstring, bump the totals, and report whether the emit interval elapsed
(resetting the cursor when it did). -/
def StreamAggregator.add_measurement (agg : StreamAggregator) (bits : List ℕ) :
    StreamAggregator × Bool :=
  let counts := bumpCount agg.bitstring_counts bits
  let total := agg.total_count + 1
  let since := agg.since_last_emit + 1
  if since ≥ agg.emit_interval then
    ({ agg with
        bitstring_counts := counts
        total_count := total
        since_last_emit := 0 }, true)
  else
    ({ agg with
        bitstring_counts := counts
        total_count := total
        since_last_emit := since }, false)

/-- StreamAggregator::current_statistics (streaming.rs lines 493-512),
discrete fields only. -/
def StreamAggregator.current_statistics (agg : StreamAggregator) (job_id : ℕ) :
    StatisticsUpdatePayload :=
  { job_id := job_id
    total_shots := agg.total_count
    completed_shots := agg.total_count }

/-- Per-job state held in the server's `jobs` map (streaming.rs lines
169-176).  The BackpressureHandler of the context is inlined as its pending
count and threshold. -/
structure JobStreamContext where
  job_id : ℕ
  replay_buffer : ReplayBuffer
  aggregator : StreamAggregator
  backpressure_pending : ℕ
  backpressure_threshold : ℕ
  total_shots : ℕ
deriving DecidableEq

/-- StreamingServerConfig (streaming.rs lines 146-167), restricted to the
fields the modelled operations read. -/
structure StreamingServerConfig where
  replay_buffer_size : ℕ
  statistics_interval_shots : ℕ
  backpressure_threshold : ℕ
deriving DecidableEq

/-- Defaults from streaming.rs lines 156-166. -/
def StreamingServerConfig.default : StreamingServerConfig :=
  { replay_buffer_size := 1000
    statistics_interval_shots := 100
    backpressure_threshold := 5000 }

/-- MeasurementStreamServer state: the `jobs` map as an association list
(newest binding first, as HashMap::insert replaces).  Subscriber mailboxes
and the global broadcast channel carry no state any claim consults. -/
structure MeasurementStreamServer where
  jobs : List (ℕ × JobStreamContext)
deriving DecidableEq

/-- MeasurementStreamServer::register_job (streaming.rs lines 198-221). -/
def register_job (srv : MeasurementStreamServer) (cfg : StreamingServerConfig)
    (job_id total_shots : ℕ) : MeasurementStreamServer :=
  { jobs := (job_id,
      { job_id := job_id
        replay_buffer := { buffer := []
                           capacity := cfg.replay_buffer_size
                           message_id := 0 }
        aggregator := { bitstring_counts := []
                        total_count := 0
                        emit_interval := cfg.statistics_interval_shots
                        since_last_emit := 0 }
        backpressure_pending := 0
        backpressure_threshold := cfg.backpressure_threshold
        total_shots := total_shots }) :: srv.jobs }

/-- Replace the binding for `id` in the jobs map (the effect of mutating the
shared context through its Arcs). -/
def setJob : List (ℕ × JobStreamContext) → ℕ → JobStreamContext →
    List (ℕ × JobStreamContext)
  | [], _, _ => []
  | (k, v) :: rest, id, c =>
      if k = id then (k, c) :: rest else (k, v) :: setJob rest id c

/-- Outcome of publish_measurement.  `blocked` models the case where
`check_and_wait` suspends because the pending count has reached the
threshold: since `BackpressureHandler::release` has no caller anywhere in the
crate, `notify` never fires and the await never completes. -/
inductive PublishResult
  | ok (srv : MeasurementStreamServer)
  | jobNotFound
  | blocked
deriving DecidableEq

/-- Server carried by an `ok` outcome. -/
def PublishResult.server? : PublishResult → Option MeasurementStreamServer
  | .ok srv => some srv
  | _ => none

/-- The job context after one publish of event `e` through it: the pending
count was incremented by `check_and_wait`, the event was pushed into the
replay buffer and folded into the aggregator.  No release follows. -/
def publishedContext (ctx : JobStreamContext) (e : MeasurementEvent) :
    JobStreamContext :=
  { ctx with
      backpressure_pending := ctx.backpressure_pending + 1
      replay_buffer := ctx.replay_buffer.push
        (.measurementEvent e.job_id e.shot_index e.bits)
      aggregator := (ctx.aggregator.add_measurement e.bits).1 }

/-- MeasurementStreamServer::publish_measurement (streaming.rs lines
223-257): look the job up (JobNotFound if absent), pass the backpressure
gate — `check_and_wait` increments the pending count once below the
threshold, and nothing in the function (or crate) ever calls `release` —
push the event into the replay buffer, fold it into the aggregator, then fan
out (fan-out does not change server state).  The pending count stays
incremented when the call returns. -/
def publish_measurement (srv : MeasurementStreamServer) (e : MeasurementEvent) :
    PublishResult :=
  match srv.jobs.lookup e.job_id with
  | none => .jobNotFound
  | some ctx =>
      if ctx.backpressure_pending ≥ ctx.backpressure_threshold then .blocked
      else .ok { jobs := setJob srv.jobs e.job_id (publishedContext ctx e) }

/-- Outcome of complete_job. -/
inductive CompleteResult
  | ok (srv : MeasurementStreamServer) (msg : StreamingMessage)
  | jobNotFound
deriving DecidableEq

/-- Server carried by an `ok` completion. -/
def CompleteResult.server? : CompleteResult → Option MeasurementStreamServer
  | .ok srv _ => some srv
  | _ => none

/-- MeasurementStreamServer::complete_job (streaming.rs lines 297-317): look
the job up (JobNotFound if absent), snapshot the aggregator, broadcast the
JobCompleted message.  The jobs map is only read — the entry is never
removed, so the server state is returned unchanged. -/
def complete_job (srv : MeasurementStreamServer) (job_id execution_time_ms : ℕ) :
    CompleteResult :=
  match srv.jobs.lookup job_id with
  | none => .jobNotFound
  | some ctx =>
      let final_stats := ctx.aggregator.current_statistics job_id
      .ok srv (.jobCompleted job_id final_stats.total_shots execution_time_ms
        final_stats)

/-- A fresh server with one registered job (id 0, 10 shots) under the default
configuration. -/
def exampleServer : MeasurementStreamServer :=
  register_job { jobs := [] } StreamingServerConfig.default 0 10

/-- A measurement event for the registered job. -/
def exampleEvent : MeasurementEvent :=
  { job_id := 0, shot_index := 0, bits := [0, 1] }

theorem lookup_setJob (jobs : List (ℕ × JobStreamContext)) (id : ℕ)
    (c : JobStreamContext) (hx : jobs.lookup id ≠ none) :
    (setJob jobs id c).lookup id = some c := by
  induction jobs with
  | nil => simp [List.lookup] at hx
  | cons kv rest ih =>
    obtain ⟨k, v⟩ := kv
    by_cases hk : k = id
    · subst hk
      simp [setJob, List.lookup]
    · have hk' : (id == k) = false := by
        simp [Ne.symm hk]
      simp only [setJob, if_neg hk, List.lookup, hk']
      simp only [List.lookup, hk'] at hx
      exact ih hx

/-- Claim C1 counterexample: on a fresh server with job 0 registered,
complete_job(0, 5) succeeds and returns the server unchanged, yet a
subsequent publish_measurement for job 0 does not return JobNotFound (it
publishes normally) — contradicting the claim that publishes after a
successful completion are JobNotFound errors. -/
theorem C1_counterexample_publish_after_complete_succeeds :
    (complete_job exampleServer 0 5).server? = some exampleServer ∧
      publish_measurement exampleServer exampleEvent ≠ PublishResult.jobNotFound := by
  exact ⟨by decide, by decide⟩

/-- Claim C1 (amended): publish_measurement returns JobNotFound exactly when
the event's job id was never registered; complete_job does not deregister the
job — a successful completion returns the server unchanged, so every
subsequent publish for that job id still finds the job and does not return
JobNotFound. -/
theorem C1_amended_jobNotFound_iff_unregistered :
    (∀ (srv : MeasurementStreamServer) (e : MeasurementEvent),
        publish_measurement srv e = PublishResult.jobNotFound ↔
          srv.jobs.lookup e.job_id = none) ∧
    (∀ (srv : MeasurementStreamServer) (id t : ℕ)
        (s : MeasurementStreamServer) (m : StreamingMessage),
        complete_job srv id t = CompleteResult.ok s m →
        s = srv ∧ ∀ e : MeasurementEvent, e.job_id = id →
          publish_measurement s e ≠ PublishResult.jobNotFound) := by
  have hpub : ∀ (srv : MeasurementStreamServer) (e : MeasurementEvent),
      publish_measurement srv e = PublishResult.jobNotFound ↔
        srv.jobs.lookup e.job_id = none := by
    intro srv e
    unfold publish_measurement
    cases hl : srv.jobs.lookup e.job_id with
    | none => simp
    | some ctx =>
      by_cases hp : ctx.backpressure_pending ≥ ctx.backpressure_threshold
      · simp [hp]
      · simp [hp]
  refine ⟨hpub, ?_⟩
  intro srv id t s m hc
  unfold complete_job at hc
  split at hc
  · cases hc
  next ctx hl =>
    have hs : s = srv := by
      cases hc
      rfl
    subst hs
    refine ⟨rfl, ?_⟩
    intro e he hcontra
    rw [hpub s e] at hcontra
    rw [he, hl] at hcontra
    cases hcontra

/-- Witness for the amended C1 theorem at the concrete registered job. -/
theorem C1_amended_witness :
    exampleServer = exampleServer ∧
      ∀ e : MeasurementEvent, e.job_id = 0 →
        publish_measurement exampleServer e ≠ PublishResult.jobNotFound :=
  C1_amended_jobNotFound_iff_unregistered.2 exampleServer 0 5 exampleServer
    (StreamingMessage.jobCompleted 0 0 5
      { job_id := 0, total_shots := 0, completed_shots := 0 })
    (by decide)

/-- Claim C2: every `ok` publish leaves the job's backpressure pending count
incremented by one relative to the pre-call state — `check_and_wait` acquired
at entry is never released, so the pending count is `before + 1`, not
`before` as the claim requires. -/
theorem C2_publish_never_releases_backpressure :
    ∀ (srv : MeasurementStreamServer) (e : MeasurementEvent)
      (s : MeasurementStreamServer),
      publish_measurement srv e = PublishResult.ok s →
      (s.jobs.lookup e.job_id).map (fun c => c.backpressure_pending) =
        (srv.jobs.lookup e.job_id).map (fun c => c.backpressure_pending + 1) := by
  intro srv e s hp
  unfold publish_measurement at hp
  split at hp
  · cases hp
  next ctx hl =>
    split at hp
    · cases hp
    next hth =>
      have hs : s = { jobs := setJob srv.jobs e.job_id (publishedContext ctx e) } := by
        cases hp
        rfl
      subst hs
      rw [lookup_setJob srv.jobs e.job_id _ (by rw [hl]; simp), hl]
      simp [publishedContext]

/-- Witness for C2 at the failing input: a fresh registered job has pending
count 0; one publish leaves it at 1 (and after 5000 publishes every further
publish blocks forever, since release is never called). -/
theorem C2_witness_fresh_job_pending_becomes_one :
    ((publish_measurement exampleServer exampleEvent).server?.bind
        (fun s => (s.jobs.lookup 0).map (fun c => c.backpressure_pending))) =
      some 1 ∧
      (exampleServer.jobs.lookup 0).map (fun c => c.backpressure_pending) =
        some 0 := by
  have h := C2_publish_never_releases_backpressure exampleServer exampleEvent
  refine ⟨?_, by decide⟩
  cases hp : publish_measurement exampleServer exampleEvent with
  | ok s =>
    have h2 := h s hp
    have hb : (exampleServer.jobs.lookup exampleEvent.job_id).map
        (fun c => c.backpressure_pending + 1) = some 1 := by decide
    rw [hb] at h2
    simpa [PublishResult.server?] using h2
  | jobNotFound => cases (by decide : publish_measurement exampleServer exampleEvent ≠ PublishResult.jobNotFound) hp
  | blocked => cases (by decide : publish_measurement exampleServer exampleEvent ≠ PublishResult.blocked) hp

/-- Witness for C7: enqueueing a Normal-priority job behind a Critical and a
Normal job places it right after the existing Normal job (FIFO among equal
priorities). -/
theorem C7_witness_concrete_enqueue :
    sortedDescB (fun j => j.priority.toNat)
        ([⟨0, QuantumJobPriority.Critical⟩, ⟨1, QuantumJobPriority.Normal⟩] :
          List QuantumJobContext) = true ∧
      submit_quantum_job
          [⟨0, QuantumJobPriority.Critical⟩, ⟨1, QuantumJobPriority.Normal⟩]
          ⟨2, QuantumJobPriority.Normal⟩ =
        insertAfterLastSameOrHigher (fun j => j.priority.toNat)
          ⟨2, QuantumJobPriority.Normal⟩
          [⟨0, QuantumJobPriority.Critical⟩, ⟨1, QuantumJobPriority.Normal⟩] :=
  ⟨by decide, C7_scheduler_queue_stable_priority_order.1 _ _ (by decide)⟩

/-! ## Dense state vector (quantum_runtime/src/state_backend.rs) and gate
kernels (quantum_runtime/src/gate_operations.rs)

Amplitude arrays are modelled as functions `ℕ → ℂ` whose significant indices
are `0 .. 2^n - 1`; the f64 complex arithmetic is modelled exactly over `ℂ`.
Every kernel in gate_operations.rs is a `for i in 0..dim` loop whose body
either rewrites one index in place or rewrites the pair `(i, j)` reading both
amplitudes first; the loops are embedded as left folds over `List.range dim`
with the body translated literally, and characterised afterwards. -/

/-- QuantumStateVector::zero_state (state_backend.rs lines 40-48). -/
def zero_state : ℕ → ℂ :=
  fun k => if k = 0 then 1 else 0

/-- Write amplitudes `x, y` at the index pair `(i, j)` (the two
`set_amplitude` calls of a pair-updating loop body). -/
def updPair (s : ℕ → ℂ) (i j : ℕ) (x y : ℂ) : ℕ → ℂ :=
  fun k => if k = i then x else if k = j then y else s k

/-- One iteration of a pair-updating gate loop: when the guard `c i` holds,
read the amplitudes at `i` and its partner `j i` and write `f`/`g` of them
back at `i`/`j i`. -/
def pairStep (c : ℕ → Bool) (j : ℕ → ℕ) (f g : ℂ → ℂ → ℂ)
    (t : ℕ → ℂ) (i : ℕ) : ℕ → ℂ :=
  if c i then updPair t i (j i) (f (t i) (t (j i))) (g (t i) (t (j i))) else t

/-- The `for i in 0..dim` loop of a pair-updating gate kernel. -/
def pairLoop (dim : ℕ) (c : ℕ → Bool) (j : ℕ → ℕ) (f g : ℂ → ℂ → ℂ)
    (s : ℕ → ℂ) : ℕ → ℂ :=
  (List.range dim).foldl (pairStep c j f g) s

/-- One iteration of a single-index gate loop: index `i` is rewritten from
its own prior amplitude. -/
def pointStep (mul : ℕ → ℂ → ℂ) (t : ℕ → ℂ) (i : ℕ) : ℕ → ℂ :=
  fun k => if k = i then mul i (t i) else t k

/-- The `for i in 0..dim` loop of a single-index (phase-type) gate kernel. -/
def pointLoop (dim : ℕ) (mul : ℕ → ℂ → ℂ) (s : ℕ → ℂ) : ℕ → ℂ :=
  (List.range dim).foldl (pointStep mul) s

theorem pairLoop_succ (m : ℕ) (c : ℕ → Bool) (j : ℕ → ℕ) (f g : ℂ → ℂ → ℂ)
    (s : ℕ → ℂ) :
    pairLoop (m + 1) c j f g s = pairStep c j f g (pairLoop m c j f g s) m := by
  unfold pairLoop
  rw [List.range_succ, List.foldl_append]
  rfl

theorem pointLoop_succ (m : ℕ) (mul : ℕ → ℂ → ℂ) (s : ℕ → ℂ) :
    pointLoop (m + 1) mul s = pointStep mul (pointLoop m mul s) m := by
  unfold pointLoop
  rw [List.range_succ, List.foldl_append]
  rfl

/-- Characterisation of a pair-updating gate loop.  The guard never holds on
a partner (`hcj`), partners are distinct from their bases (`hji`), and `p`
recovers the base index from a partner (`hp`); under these conditions —
satisfied by every kernel below because a base has the target bit clear and
its partner has it set — the loop's iterations touch pairwise disjoint index
pairs, each exactly once, so the loop equals the evident pointwise map. -/
theorem pairLoop_char (c : ℕ → Bool) (j p : ℕ → ℕ) (f g : ℂ → ℂ → ℂ)
    (hcj : ∀ i, c i = true → c (j i) = false)
    (hji : ∀ i, c i = true → j i ≠ i)
    (hp : ∀ i, c i = true → p (j i) = i)
    (s : ℕ → ℂ) (dim : ℕ) :
    ∀ k, pairLoop dim c j f g s k =
      if c k = true ∧ k < dim then f (s k) (s (j k))
      else if c (p k) = true ∧ j (p k) = k ∧ p k < dim then g (s (p k)) (s k)
      else s k := by
  induction dim with
  | zero =>
    intro k
    simp [pairLoop]
  | succ m ih =>
    intro k
    rw [pairLoop_succ]
    by_cases hcm : c m = true
    · have hXm : pairLoop m c j f g s m = s m := by
        rw [ih m]
        have h1 : ¬ (c m = true ∧ m < m) := by simp
        rw [if_neg h1]
        by_cases h2 : c (p m) = true ∧ j (p m) = m ∧ p m < m
        · exfalso
          have hf := hcj (p m) h2.1
          rw [h2.2.1] at hf
          rw [hf] at hcm
          cases hcm
        · rw [if_neg h2]
      have hXjm : pairLoop m c j f g s (j m) = s (j m) := by
        rw [ih (j m)]
        have h1 : ¬ (c (j m) = true ∧ j m < m) := by
          intro hh
          rw [hcj m hcm] at hh
          cases hh.1
        rw [if_neg h1]
        have h2 : ¬ (c (p (j m)) = true ∧ j (p (j m)) = j m ∧ p (j m) < m) := by
          intro hh
          rw [hp m hcm] at hh
          exact Nat.lt_irrefl m hh.2.2
        rw [if_neg h2]
      have hstep : pairStep c j f g (pairLoop m c j f g s) m =
          updPair (pairLoop m c j f g s) m (j m)
            (f (s m) (s (j m))) (g (s m) (s (j m))) := by
        rw [pairStep, if_pos hcm, hXm, hXjm]
      rw [hstep]
      by_cases hkm : k = m
      · subst hkm
        rw [if_pos ⟨hcm, Nat.lt_succ_self k⟩]
        simp [updPair]
      · by_cases hkj : k = j m
        · subst hkj
          have hne : j m ≠ m := hji m hcm
          have h1 : ¬ (c (j m) = true ∧ j m < m + 1) := by
            intro hh
            rw [hcj m hcm] at hh
            cases hh.1
          rw [if_neg h1]
          have h2 : c (p (j m)) = true ∧ j (p (j m)) = j m ∧ p (j m) < m + 1 := by
            rw [hp m hcm]
            exact ⟨hcm, rfl, Nat.lt_succ_self m⟩
          rw [if_pos h2, hp m hcm]
          simp [updPair, hne]
        · have hupd : updPair (pairLoop m c j f g s) m (j m)
              (f (s m) (s (j m))) (g (s m) (s (j m))) k =
              pairLoop m c j f g s k := by
            simp [updPair, hkm, hkj]
          rw [hupd, ih k]
          by_cases hck : c k = true ∧ k < m
          · rw [if_pos hck, if_pos ⟨hck.1, Nat.lt_succ_of_lt hck.2⟩]
          · by_cases hck1 : c k = true ∧ k < m + 1
            · exfalso
              have : k = m := by
                rcases hck1 with ⟨hc1, hlt1⟩
                have hnl : ¬ k < m := fun hl => hck ⟨hc1, hl⟩
                omega
              exact hkm this
            · rw [if_neg hck, if_neg hck1]
              by_cases hpk : c (p k) = true ∧ j (p k) = k ∧ p k < m
              · rw [if_pos hpk, if_pos ⟨hpk.1, hpk.2.1, Nat.lt_succ_of_lt hpk.2.2⟩]
              · by_cases hpk1 : c (p k) = true ∧ j (p k) = k ∧ p k < m + 1
                · exfalso
                  have hpm : p k = m := by
                    rcases hpk1 with ⟨ha, hb, hlt1⟩
                    have hnl : ¬ p k < m := fun hl => hpk ⟨ha, hb, hl⟩
                    omega
                  rw [hpm] at hpk1
                  exact hkj hpk1.2.1.symm
                · rw [if_neg hpk, if_neg hpk1]
    · have hstep : pairStep c j f g (pairLoop m c j f g s) m =
          pairLoop m c j f g s := by
        rw [pairStep, if_neg hcm]
      rw [hstep, ih k]
      by_cases hck : c k = true ∧ k < m
      · rw [if_pos hck, if_pos ⟨hck.1, Nat.lt_succ_of_lt hck.2⟩]
      · by_cases hck1 : c k = true ∧ k < m + 1
        · exfalso
          have hkm : k = m := by
            rcases hck1 with ⟨hc1, hlt1⟩
            have hnl : ¬ k < m := fun hl => hck ⟨hc1, hl⟩
            omega
          rw [hkm] at hck1
          exact hcm hck1.1
        · rw [if_neg hck, if_neg hck1]
          by_cases hpk : c (p k) = true ∧ j (p k) = k ∧ p k < m
          · rw [if_pos hpk, if_pos ⟨hpk.1, hpk.2.1, Nat.lt_succ_of_lt hpk.2.2⟩]
          · by_cases hpk1 : c (p k) = true ∧ j (p k) = k ∧ p k < m + 1
            · exfalso
              have hpm : p k = m := by
                rcases hpk1 with ⟨ha, hb, hlt1⟩
                have hnl : ¬ p k < m := fun hl => hpk ⟨ha, hb, hl⟩
                omega
              rw [hpm] at hpk1
              exact hcm hpk1.1
            · rw [if_neg hpk, if_neg hpk1]

/-- Characterisation of a single-index gate loop: every index below the
dimension is rewritten once from its own prior amplitude. -/
theorem pointLoop_char (mul : ℕ → ℂ → ℂ) (s : ℕ → ℂ) (dim : ℕ) :
    ∀ k, pointLoop dim mul s k = if k < dim then mul k (s k) else s k := by
  induction dim with
  | zero =>
    intro k
    simp [pointLoop]
  | succ m ih =>
    intro k
    rw [pointLoop_succ]
    by_cases hkm : k = m
    · have hXm : pointLoop m mul s m = s m := by
        rw [ih m]
        simp
      subst hkm
      rw [if_pos (Nat.lt_succ_self k)]
      simp [pointStep, hXm]
    · have hstep : pointStep mul (pointLoop m mul s) m k =
          pointLoop m mul s k := by
        simp [pointStep, hkm]
      rw [hstep, ih k]
      by_cases hlt : k < m
      · rw [if_pos hlt, if_pos (Nat.lt_succ_of_lt hlt)]
      · have h1 : ¬ k < m + 1 := by omega
        rw [if_neg hlt, if_neg h1]

/-! Bit arithmetic for the target masks.  Every kernel computes
`target_bit = n - 1 - q` and `mask = 1 << target_bit = 2 ^ target_bit`. -/

theorem and_two_pow_eq_zero_iff (x t : ℕ) :
    x &&& 2 ^ t = 0 ↔ x.testBit t = false := by
  rw [Nat.and_two_pow]
  cases h : x.testBit t
  · simp
  · have h2 : (2 : ℕ) ^ t ≠ 0 := (Nat.two_pow_pos t).ne'
    simp [h2]

theorem and_two_pow_ne_zero_iff (x t : ℕ) :
    x &&& 2 ^ t ≠ 0 ↔ x.testBit t = true := by
  rw [Ne, and_two_pow_eq_zero_iff]
  cases h : x.testBit t <;> simp [h]

theorem or_xor_cancel_two_pow (i t : ℕ) (h : i.testBit t = false) :
    (i ||| 2 ^ t) ^^^ 2 ^ t = i := by
  apply Nat.eq_of_testBit_eq
  intro u
  by_cases hu : u = t
  · subst hu
    simp [Nat.testBit_xor, Nat.testBit_or, h]
  · have h2 : Nat.testBit (2 ^ t) u = false :=
      Nat.testBit_two_pow_of_ne (fun hh => hu hh.symm)
    simp [Nat.testBit_xor, Nat.testBit_or, h2]

theorem xor_or_cancel_two_pow (k t : ℕ) (h : k.testBit t = true) :
    (k ^^^ 2 ^ t) ||| 2 ^ t = k := by
  apply Nat.eq_of_testBit_eq
  intro u
  by_cases hu : u = t
  · subst hu
    simp [Nat.testBit_xor, Nat.testBit_or, h]
  · have h2 : Nat.testBit (2 ^ t) u = false :=
      Nat.testBit_two_pow_of_ne (fun hh => hu hh.symm)
    simp [Nat.testBit_xor, Nat.testBit_or, h2]

theorem testBit_or_two_pow_self (i t : ℕ) : (i ||| 2 ^ t).testBit t = true := by
  simp [Nat.testBit_or]

theorem testBit_xor_two_pow_self (i t : ℕ) :
    (i ^^^ 2 ^ t).testBit t = !(i.testBit t) := by
  simp [Nat.testBit_xor]

theorem testBit_or_two_pow_of_ne (i t u : ℕ) (h : u ≠ t) :
    (i ||| 2 ^ t).testBit u = i.testBit u := by
  have h2 : Nat.testBit (2 ^ t) u = false :=
    Nat.testBit_two_pow_of_ne (fun hh => h hh.symm)
  simp [Nat.testBit_or, h2]

theorem testBit_xor_two_pow_of_ne (i t u : ℕ) (h : u ≠ t) :
    (i ^^^ 2 ^ t).testBit u = i.testBit u := by
  have h2 : Nat.testBit (2 ^ t) u = false :=
    Nat.testBit_two_pow_of_ne (fun hh => h hh.symm)
  simp [Nat.testBit_xor, h2]

theorem or_two_pow_ne_self (i t : ℕ) (h : i.testBit t = false) :
    i ||| 2 ^ t ≠ i := by
  intro he
  have h1 : (i ||| 2 ^ t).testBit t = true := testBit_or_two_pow_self i t
  rw [he, h] at h1
  cases h1

theorem two_pow_lt_of_bit_lt (t n : ℕ) (h : t < n) : 2 ^ t < 2 ^ n :=
  Nat.pow_lt_pow_right (by norm_num) h

theorem target_bit_lt (n q : ℕ) (hq : q < n) : n - 1 - q < n := by
  omega

/-- Complex64::new(x, y). -/
def complex_new (x y : ℝ) : ℂ := ⟨x, y⟩

theorem complex_new_re (x y : ℝ) : (complex_new x y).re = x := rfl

theorem complex_new_im (x y : ℝ) : (complex_new x y).im = y := rfl

/-- Complex64::from_polar(1.0, ang). -/
noncomputable def from_polar (ang : ℝ) : ℂ := complex_new (Real.cos ang) (Real.sin ang)

/-- HadamardGate::apply_to_full_state_vector (gate_operations.rs lines
46-62): `target_bit = n - 1 - q`, `mask = 1 << target_bit = 2^target_bit`;
for every `i` with the target bit clear, rewrite the pair
`(i, j) = (i, i | mask)` to `((a+b)/√2, (a−b)/√2)`. -/
noncomputable def hadamard_apply (n q : ℕ) (s : ℕ → ℂ) : ℕ → ℂ :=
  pairLoop (2 ^ n) (fun i => decide (i &&& 2 ^ (n - 1 - q) = 0))
    (fun i => i ||| 2 ^ (n - 1 - q))
    (fun a b => (a + b) * ((Real.sqrt 2)⁻¹ : ℝ))
    (fun a b => (a - b) * ((Real.sqrt 2)⁻¹ : ℝ)) s

/-- PauliXGate::apply_to_full_state_vector (gate_operations.rs lines
92-105): swap the amplitudes of each target-bit pair. -/
def pauli_x_apply (n q : ℕ) (s : ℕ → ℂ) : ℕ → ℂ :=
  pairLoop (2 ^ n) (fun i => decide (i &&& 2 ^ (n - 1 - q) = 0))
    (fun i => i ||| 2 ^ (n - 1 - q))
    (fun _ b => b) (fun a _ => a) s

/-- PauliYGate::apply_to_full_state_vector (gate_operations.rs lines
134-150): `a' = Complex64::new(0,1)·b = i·b`, `b' = Complex64::new(0,−1)·a =
−i·a`. -/
def pauli_y_apply (n q : ℕ) (s : ℕ → ℂ) : ℕ → ℂ :=
  pairLoop (2 ^ n) (fun i => decide (i &&& 2 ^ (n - 1 - q) = 0))
    (fun i => i ||| 2 ^ (n - 1 - q))
    (fun _ b => complex_new 0 1 * b) (fun a _ => complex_new 0 (-1) * a) s

/-- PauliZGate::apply_to_full_state_vector (gate_operations.rs lines
179-192): negate amplitudes whose target bit is set (indices with the bit
clear are left as they are, which the pointwise identity branch captures). -/
def pauli_z_apply (n q : ℕ) (s : ℕ → ℂ) : ℕ → ℂ :=
  pointLoop (2 ^ n)
    (fun i a => if i &&& 2 ^ (n - 1 - q) ≠ 0 then -a else a) s

/-- RotationXGate::apply_to_full_state_vector (gate_operations.rs lines
222-247): rotation by θ about X, `cos(θ/2)` on the diagonal and
`Complex64::new(0, −sin(θ/2))` off it. -/
noncomputable def rotation_x_apply (n q : ℕ) (θ : ℝ) (s : ℕ → ℂ) : ℕ → ℂ :=
  pairLoop (2 ^ n) (fun i => decide (i &&& 2 ^ (n - 1 - q) = 0))
    (fun i => i ||| 2 ^ (n - 1 - q))
    (fun a b => complex_new (Real.cos (θ / 2)) 0 * a +
      complex_new 0 (-Real.sin (θ / 2)) * b)
    (fun a b => complex_new 0 (-Real.sin (θ / 2)) * a +
      complex_new (Real.cos (θ / 2)) 0 * b) s

/-- RotationYGate::apply_to_full_state_vector (gate_operations.rs lines
285-304): real rotation by θ/2 on each target pair (the f64 scalar
multiplications `cos_half * a` are complex multiplications by
`cos_half + 0i`). -/
noncomputable def rotation_y_apply (n q : ℕ) (θ : ℝ) (s : ℕ → ℂ) : ℕ → ℂ :=
  pairLoop (2 ^ n) (fun i => decide (i &&& 2 ^ (n - 1 - q) = 0))
    (fun i => i ||| 2 ^ (n - 1 - q))
    (fun a b => complex_new (Real.cos (θ / 2)) 0 * a -
      complex_new (Real.sin (θ / 2)) 0 * b)
    (fun a b => complex_new (Real.sin (θ / 2)) 0 * a +
      complex_new (Real.cos (θ / 2)) 0 * b) s

/-- RotationZGate::apply_to_full_state_vector (gate_operations.rs lines
336-355): multiply by `from_polar(1, −θ/2)` where the target bit is clear
and by `from_polar(1, θ/2)` where it is set. -/
noncomputable def rotation_z_apply (n q : ℕ) (θ : ℝ) (s : ℕ → ℂ) : ℕ → ℂ :=
  pointLoop (2 ^ n)
    (fun i a => if i &&& 2 ^ (n - 1 - q) = 0 then from_polar (-(θ / 2)) * a
      else from_polar (θ / 2) * a) s

/-- ControlledNotGate::apply_to_full_state_vector (gate_operations.rs lines
400-415): swap each pair `(i, i | target_mask)` whose control bit is set and
whose target bit is clear. -/
def controlled_not_apply (n cq tq : ℕ) (s : ℕ → ℂ) : ℕ → ℂ :=
  pairLoop (2 ^ n)
    (fun i => decide (i &&& 2 ^ (n - 1 - cq) ≠ 0 ∧ i &&& 2 ^ (n - 1 - tq) = 0))
    (fun i => i ||| 2 ^ (n - 1 - tq))
    (fun _ b => b) (fun a _ => a) s

/-- ControlledPhaseGate::apply_to_full_state_vector (gate_operations.rs
lines 479-495): multiply by `from_polar(1, θ)` exactly where both the
control and target bits are set. -/
noncomputable def controlled_phase_apply (n cq tq : ℕ) (θ : ℝ) (s : ℕ → ℂ) : ℕ → ℂ :=
  pointLoop (2 ^ n)
    (fun i a =>
      if i &&& 2 ^ (n - 1 - cq) ≠ 0 ∧ i &&& 2 ^ (n - 1 - tq) ≠ 0 then
        from_polar θ * a
      else a) s

/-- SwapGate::apply_to_full_state_vector (gate_operations.rs lines 553-570):
for `i` with bit `a` set and bit `b` clear, swap with
`j = (i & !mask_a) | mask_b`; clearing a set bit of a usize is `i ^ mask_a`
on ℕ. -/
def swap_apply (n qa qb : ℕ) (s : ℕ → ℂ) : ℕ → ℂ :=
  pairLoop (2 ^ n)
    (fun i => decide (i &&& 2 ^ (n - 1 - qa) ≠ 0 ∧ i &&& 2 ^ (n - 1 - qb) = 0))
    (fun i => (i ^^^ 2 ^ (n - 1 - qa)) ||| 2 ^ (n - 1 - qb))
    (fun _ b => b) (fun a _ => a) s

/-- ToffoliGate::apply_to_full_state_vector (gate_operations.rs lines
639-656): swap each pair `(i, i | t_mask)` that has both control bits set
and the target bit clear. -/
def toffoli_apply (n c1 c2 tq : ℕ) (s : ℕ → ℂ) : ℕ → ℂ :=
  pairLoop (2 ^ n)
    (fun i =>
      decide (i &&& (2 ^ (n - 1 - c1) ||| 2 ^ (n - 1 - c2)) =
          (2 ^ (n - 1 - c1) ||| 2 ^ (n - 1 - c2)) ∧
        i &&& 2 ^ (n - 1 - tq) = 0))
    (fun i => i ||| 2 ^ (n - 1 - tq))
    (fun _ b => b) (fun a _ => a) s

/-- Sum of the squared magnitudes of the significant amplitudes
(`Σ|a_i|²`). -/
def sumSq (dim : ℕ) (s : ℕ → ℂ) : ℝ :=
  ∑ k in Finset.range dim, Complex.normSq (s k)

theorem pointLoop_sumSq (dim : ℕ) (mul : ℕ → ℂ → ℂ) (s : ℕ → ℂ)
    (hm : ∀ k, k < dim → Complex.normSq (mul k (s k)) = Complex.normSq (s k)) :
    sumSq dim (pointLoop dim mul s) = sumSq dim s := by
  unfold sumSq
  refine Finset.sum_congr rfl ?_
  intro k hk
  have hk' : k < dim := Finset.mem_range.mp hk
  rw [pointLoop_char mul s dim k, if_pos hk']
  exact hm k hk'

/-- Preservation of `Σ|a_i|²` for any pair-updating loop whose pointwise
update preserves `|a|² + |b|²`, provided the loop's guard, partner and
partner-inverse satisfy the disjointness conditions of `pairLoop_char` and
stay inside the dimension. -/
theorem pairLoop_sumSq (dim : ℕ) (c : ℕ → Bool) (j p : ℕ → ℕ)
    (f g : ℂ → ℂ → ℂ) (s : ℕ → ℂ)
    (hcj : ∀ i, c i = true → c (j i) = false)
    (hji : ∀ i, c i = true → j i ≠ i)
    (hp : ∀ i, c i = true → p (j i) = i)
    (hjlt : ∀ i, i < dim → c i = true → j i < dim)
    (hplt : ∀ k, k < dim → p k < dim)
    (hfg : ∀ a b, Complex.normSq (f a b) + Complex.normSq (g a b) =
      Complex.normSq a + Complex.normSq b) :
    sumSq dim (pairLoop dim c j f g s) = sumSq dim s := by
  have hchar := pairLoop_char c j p f g hcj hji hp s dim
  unfold sumSq
  rw [← Finset.sum_filter_add_sum_filter_not (Finset.range dim)
    (fun k => c k = true) (fun k => Complex.normSq (pairLoop dim c j f g s k))]
  rw [← Finset.sum_filter_add_sum_filter_not
    ((Finset.range dim).filter (fun k => ¬ c k = true))
    (fun k => c (p k) = true ∧ j (p k) = k)
    (fun k => Complex.normSq (pairLoop dim c j f g s k))]
  rw [← Finset.sum_filter_add_sum_filter_not (Finset.range dim)
    (fun k => c k = true) (fun k => Complex.normSq (s k))]
  rw [← Finset.sum_filter_add_sum_filter_not
    ((Finset.range dim).filter (fun k => ¬ c k = true))
    (fun k => c (p k) = true ∧ j (p k) = k)
    (fun k => Complex.normSq (s k))]
  -- evaluate the loop on each of the three blocks
  have hA : ∀ k ∈ (Finset.range dim).filter (fun k => c k = true),
      Complex.normSq (pairLoop dim c j f g s k) =
        Complex.normSq (f (s k) (s (j k))) := by
    intro k hk
    rcases Finset.mem_filter.mp hk with ⟨hkr, hck⟩
    rw [hchar k, if_pos ⟨hck, Finset.mem_range.mp hkr⟩]
  have hB : ∀ k ∈ ((Finset.range dim).filter (fun k => ¬ c k = true)).filter
      (fun k => c (p k) = true ∧ j (p k) = k),
      Complex.normSq (pairLoop dim c j f g s k) =
        Complex.normSq (g (s (p k)) (s k)) := by
    intro k hk
    rcases Finset.mem_filter.mp hk with ⟨hk1, hq⟩
    rcases Finset.mem_filter.mp hk1 with ⟨hkr, hck⟩
    rw [hchar k, if_neg (fun hh => hck hh.1),
      if_pos ⟨hq.1, hq.2, hplt k (Finset.mem_range.mp hkr)⟩]
  have hC : ∀ k ∈ ((Finset.range dim).filter (fun k => ¬ c k = true)).filter
      (fun k => ¬ (c (p k) = true ∧ j (p k) = k)),
      Complex.normSq (pairLoop dim c j f g s k) = Complex.normSq (s k) := by
    intro k hk
    rcases Finset.mem_filter.mp hk with ⟨hk1, hq⟩
    rcases Finset.mem_filter.mp hk1 with ⟨_, hck⟩
    rw [hchar k, if_neg (fun hh => hck hh.1), if_neg (fun hh => hq ⟨hh.1, hh.2.1⟩)]
  rw [Finset.sum_congr rfl hA, Finset.sum_congr rfl hB, Finset.sum_congr rfl hC]
  -- transport the partner block back onto the base block
  have hBij1 : ∑ k in ((Finset.range dim).filter (fun k => ¬ c k = true)).filter
      (fun k => c (p k) = true ∧ j (p k) = k),
      Complex.normSq (g (s (p k)) (s k)) =
      ∑ k in (Finset.range dim).filter (fun k => c k = true),
      Complex.normSq (g (s k) (s (j k))) := by
    refine Finset.sum_bij' (fun b _ => p b) (fun a _ => j a) ?_ ?_ ?_ ?_ ?_
    · intro b hb
      rcases Finset.mem_filter.mp hb with ⟨hb1, hq⟩
      rcases Finset.mem_filter.mp hb1 with ⟨hbr, _⟩
      exact Finset.mem_filter.mpr
        ⟨Finset.mem_range.mpr (hplt b (Finset.mem_range.mp hbr)), hq.1⟩
    · intro a ha
      rcases Finset.mem_filter.mp ha with ⟨har, hca⟩
      refine Finset.mem_filter.mpr ⟨Finset.mem_filter.mpr ⟨?_, ?_⟩, ?_⟩
      · exact Finset.mem_range.mpr (hjlt a (Finset.mem_range.mp har) hca)
      · intro hcja
        rw [hcj a hca] at hcja
        cases hcja
      · rw [hp a hca]
        exact ⟨hca, rfl⟩
    · intro b hb
      rcases Finset.mem_filter.mp hb with ⟨_, hq⟩
      exact hq.2
    · intro a ha
      rcases Finset.mem_filter.mp ha with ⟨_, hca⟩
      exact hp a hca
    · intro b hb
      rcases Finset.mem_filter.mp hb with ⟨_, hq⟩
      rw [hq.2]
  have hBij2 : ∑ k in ((Finset.range dim).filter (fun k => ¬ c k = true)).filter
      (fun k => c (p k) = true ∧ j (p k) = k),
      Complex.normSq (s k) =
      ∑ k in (Finset.range dim).filter (fun k => c k = true),
      Complex.normSq (s (j k)) := by
    refine Finset.sum_bij' (fun b _ => p b) (fun a _ => j a) ?_ ?_ ?_ ?_ ?_
    · intro b hb
      rcases Finset.mem_filter.mp hb with ⟨hb1, hq⟩
      rcases Finset.mem_filter.mp hb1 with ⟨hbr, _⟩
      exact Finset.mem_filter.mpr
        ⟨Finset.mem_range.mpr (hplt b (Finset.mem_range.mp hbr)), hq.1⟩
    · intro a ha
      rcases Finset.mem_filter.mp ha with ⟨har, hca⟩
      refine Finset.mem_filter.mpr ⟨Finset.mem_filter.mpr ⟨?_, ?_⟩, ?_⟩
      · exact Finset.mem_range.mpr (hjlt a (Finset.mem_range.mp har) hca)
      · intro hcja
        rw [hcj a hca] at hcja
        cases hcja
      · rw [hp a hca]
        exact ⟨hca, rfl⟩
    · intro b hb
      rcases Finset.mem_filter.mp hb with ⟨_, hq⟩
      exact hq.2
    · intro a ha
      rcases Finset.mem_filter.mp ha with ⟨_, hca⟩
      exact hp a hca
    · intro b hb
      rcases Finset.mem_filter.mp hb with ⟨_, hq⟩
      rw [hq.2]
  rw [hBij1, hBij2]
  rw [← add_assoc, ← add_assoc, ← Finset.sum_add_distrib, ← Finset.sum_add_distrib]
  congr 1
  refine Finset.sum_congr rfl ?_
  intro k _
  exact hfg (s k) (s (j k))

/-- Norm preservation for any kernel whose partner is `i ||| 2^t` guarded by
a condition implying the bit `t` is clear (Hadamard, Pauli-X/Y, Rx, Ry,
CNOT, Toffoli). -/
theorem pairLoop_sumSq_or_mask (n t : ℕ) (ht : t < n) (c : ℕ → Bool)
    (hc : ∀ i, c i = true → i.testBit t = false)
    (f g : ℂ → ℂ → ℂ) (s : ℕ → ℂ)
    (hfg : ∀ a b, Complex.normSq (f a b) + Complex.normSq (g a b) =
      Complex.normSq a + Complex.normSq b) :
    sumSq (2 ^ n) (pairLoop (2 ^ n) c (fun i => i ||| 2 ^ t) f g s) =
      sumSq (2 ^ n) s := by
  apply pairLoop_sumSq (2 ^ n) c (fun i => i ||| 2 ^ t) (fun k => k ^^^ 2 ^ t)
    f g s
  · intro i hi
    cases hcji : c (i ||| 2 ^ t)
    · rfl
    · have hfb := hc _ hcji
      rw [testBit_or_two_pow_self] at hfb
      cases hfb
  · intro i hi
    exact or_two_pow_ne_self i t (hc i hi)
  · intro i hi
    exact or_xor_cancel_two_pow i t (hc i hi)
  · intro i hilt hi
    exact Nat.or_lt_two_pow hilt (two_pow_lt_of_bit_lt t n ht)
  · intro k hk
    exact Nat.xor_lt_two_pow hk (two_pow_lt_of_bit_lt t n ht)
  · exact hfg

theorem normSq_pair_hadamard (a b : ℂ) :
    Complex.normSq ((a + b) * ((Real.sqrt 2)⁻¹ : ℝ)) +
      Complex.normSq ((a - b) * ((Real.sqrt 2)⁻¹ : ℝ)) =
      Complex.normSq a + Complex.normSq b := by
  rw [Complex.normSq_mul, Complex.normSq_mul, Complex.normSq_ofReal]
  have hw : (Real.sqrt 2)⁻¹ * (Real.sqrt 2)⁻¹ = (2 : ℝ)⁻¹ := by
    rw [← mul_inv, Real.mul_self_sqrt (by norm_num)]
  rw [hw, Complex.normSq_add, Complex.normSq_sub]
  ring

theorem normSq_pair_pauli_y (a b : ℂ) :
    Complex.normSq (complex_new 0 1 * b) +
      Complex.normSq (complex_new 0 (-1) * a) =
      Complex.normSq a + Complex.normSq b := by
  rw [Complex.normSq_mul, Complex.normSq_mul]
  simp only [Complex.normSq_mk, complex_new]
  norm_num
  ring

theorem normSq_pair_rotation_x (θ : ℝ) (a b : ℂ) :
    Complex.normSq (complex_new (Real.cos (θ / 2)) 0 * a +
        complex_new 0 (-Real.sin (θ / 2)) * b) +
      Complex.normSq (complex_new 0 (-Real.sin (θ / 2)) * a +
        complex_new (Real.cos (θ / 2)) 0 * b) =
      Complex.normSq a + Complex.normSq b := by
  have hcs := Real.sin_sq_add_cos_sq (θ / 2)
  simp only [Complex.normSq_apply, Complex.add_re, Complex.add_im,
    Complex.mul_re, Complex.mul_im, complex_new_re, complex_new_im]
  linear_combination (a.re * a.re + a.im * a.im + b.re * b.re + b.im * b.im) * hcs

theorem normSq_pair_rotation_y (θ : ℝ) (a b : ℂ) :
    Complex.normSq (complex_new (Real.cos (θ / 2)) 0 * a -
        complex_new (Real.sin (θ / 2)) 0 * b) +
      Complex.normSq (complex_new (Real.sin (θ / 2)) 0 * a +
        complex_new (Real.cos (θ / 2)) 0 * b) =
      Complex.normSq a + Complex.normSq b := by
  have hcs := Real.sin_sq_add_cos_sq (θ / 2)
  simp only [Complex.normSq_apply, Complex.sub_re, Complex.sub_im,
    Complex.add_re, Complex.add_im, Complex.mul_re, Complex.mul_im,
    complex_new_re, complex_new_im]
  linear_combination (a.re * a.re + a.im * a.im + b.re * b.re + b.im * b.im) * hcs

theorem normSq_from_polar (ang : ℝ) : Complex.normSq (from_polar ang) = 1 := by
  simp only [from_polar, complex_new, Complex.normSq_mk]
  linear_combination Real.sin_sq_add_cos_sq ang

theorem hadamard_apply_sumSq (n q : ℕ) (hq : q < n) (s : ℕ → ℂ) :
    sumSq (2 ^ n) (hadamard_apply n q s) = sumSq (2 ^ n) s := by
  unfold hadamard_apply
  apply pairLoop_sumSq_or_mask n (n - 1 - q) (target_bit_lt n q hq)
  · intro i hi
    exact (and_two_pow_eq_zero_iff i _).mp (of_decide_eq_true hi)
  · exact normSq_pair_hadamard

theorem pauli_x_apply_sumSq (n q : ℕ) (hq : q < n) (s : ℕ → ℂ) :
    sumSq (2 ^ n) (pauli_x_apply n q s) = sumSq (2 ^ n) s := by
  unfold pauli_x_apply
  apply pairLoop_sumSq_or_mask n (n - 1 - q) (target_bit_lt n q hq)
  · intro i hi
    exact (and_two_pow_eq_zero_iff i _).mp (of_decide_eq_true hi)
  · intro a b
    exact add_comm _ _

theorem pauli_y_apply_sumSq (n q : ℕ) (hq : q < n) (s : ℕ → ℂ) :
    sumSq (2 ^ n) (pauli_y_apply n q s) = sumSq (2 ^ n) s := by
  unfold pauli_y_apply
  apply pairLoop_sumSq_or_mask n (n - 1 - q) (target_bit_lt n q hq)
  · intro i hi
    exact (and_two_pow_eq_zero_iff i _).mp (of_decide_eq_true hi)
  · exact normSq_pair_pauli_y

theorem rotation_x_apply_sumSq (n q : ℕ) (θ : ℝ) (hq : q < n) (s : ℕ → ℂ) :
    sumSq (2 ^ n) (rotation_x_apply n q θ s) = sumSq (2 ^ n) s := by
  unfold rotation_x_apply
  apply pairLoop_sumSq_or_mask n (n - 1 - q) (target_bit_lt n q hq)
  · intro i hi
    exact (and_two_pow_eq_zero_iff i _).mp (of_decide_eq_true hi)
  · exact normSq_pair_rotation_x θ

theorem rotation_y_apply_sumSq (n q : ℕ) (θ : ℝ) (hq : q < n) (s : ℕ → ℂ) :
    sumSq (2 ^ n) (rotation_y_apply n q θ s) = sumSq (2 ^ n) s := by
  unfold rotation_y_apply
  apply pairLoop_sumSq_or_mask n (n - 1 - q) (target_bit_lt n q hq)
  · intro i hi
    exact (and_two_pow_eq_zero_iff i _).mp (of_decide_eq_true hi)
  · exact normSq_pair_rotation_y θ

theorem controlled_not_apply_sumSq (n cq tq : ℕ) (ht : tq < n) (s : ℕ → ℂ) :
    sumSq (2 ^ n) (controlled_not_apply n cq tq s) = sumSq (2 ^ n) s := by
  unfold controlled_not_apply
  apply pairLoop_sumSq_or_mask n (n - 1 - tq) (target_bit_lt n tq ht)
  · intro i hi
    exact (and_two_pow_eq_zero_iff i _).mp (of_decide_eq_true hi).2
  · intro a b
    exact add_comm _ _

theorem toffoli_apply_sumSq (n c1 c2 tq : ℕ) (ht : tq < n) (s : ℕ → ℂ) :
    sumSq (2 ^ n) (toffoli_apply n c1 c2 tq s) = sumSq (2 ^ n) s := by
  unfold toffoli_apply
  apply pairLoop_sumSq_or_mask n (n - 1 - tq) (target_bit_lt n tq ht)
  · intro i hi
    exact (and_two_pow_eq_zero_iff i _).mp (of_decide_eq_true hi).2
  · intro a b
    exact add_comm _ _

theorem pauli_z_apply_sumSq (n q : ℕ) (s : ℕ → ℂ) :
    sumSq (2 ^ n) (pauli_z_apply n q s) = sumSq (2 ^ n) s := by
  unfold pauli_z_apply
  apply pointLoop_sumSq
  intro k _
  by_cases hb : k &&& 2 ^ (n - 1 - q) ≠ 0
  · simp [hb]
  · simp [hb]

theorem rotation_z_apply_sumSq (n q : ℕ) (θ : ℝ) (s : ℕ → ℂ) :
    sumSq (2 ^ n) (rotation_z_apply n q θ s) = sumSq (2 ^ n) s := by
  unfold rotation_z_apply
  apply pointLoop_sumSq
  intro k _
  by_cases hb : k &&& 2 ^ (n - 1 - q) = 0
  · rw [if_pos hb, Complex.normSq_mul, normSq_from_polar, one_mul]
  · rw [if_neg hb, Complex.normSq_mul, normSq_from_polar, one_mul]

theorem controlled_phase_apply_sumSq (n cq tq : ℕ) (θ : ℝ) (s : ℕ → ℂ) :
    sumSq (2 ^ n) (controlled_phase_apply n cq tq θ s) = sumSq (2 ^ n) s := by
  unfold controlled_phase_apply
  apply pointLoop_sumSq
  intro k _
  by_cases hb : k &&& 2 ^ (n - 1 - cq) ≠ 0 ∧ k &&& 2 ^ (n - 1 - tq) ≠ 0
  · rw [if_pos hb, Complex.normSq_mul, normSq_from_polar, one_mul]
  · rw [if_neg hb]

theorem swap_apply_sumSq (n qa qb : ℕ) (ha : qa < n) (hb : qb < n)
    (hne : qa ≠ qb) (s : ℕ → ℂ) :
    sumSq (2 ^ n) (swap_apply n qa qb s) = sumSq (2 ^ n) s := by
  have hta : n - 1 - qa < n := target_bit_lt n qa ha
  have htb : n - 1 - qb < n := target_bit_lt n qb hb
  have htab : n - 1 - qa ≠ n - 1 - qb := by omega
  have htba : n - 1 - qb ≠ n - 1 - qa := by omega
  unfold swap_apply
  apply pairLoop_sumSq (2 ^ n) _ _
    (fun k => (k ^^^ 2 ^ (n - 1 - qb)) ||| 2 ^ (n - 1 - qa))
  · intro i hi
    have h1 := of_decide_eq_true hi
    have hita : i.testBit (n - 1 - qa) = true :=
      (and_two_pow_ne_zero_iff i _).mp h1.1
    have hjta : ((i ^^^ 2 ^ (n - 1 - qa)) ||| 2 ^ (n - 1 - qb)).testBit
        (n - 1 - qa) = false := by
      rw [testBit_or_two_pow_of_ne _ _ _ htab, testBit_xor_two_pow_self, hita]
      rfl
    apply decide_eq_false
    intro hcontra
    have hc1 := (and_two_pow_ne_zero_iff _ _).mp hcontra.1
    rw [hjta] at hc1
    cases hc1
  · intro i hi
    have h1 := of_decide_eq_true hi
    have hitb : i.testBit (n - 1 - qb) = false :=
      (and_two_pow_eq_zero_iff i _).mp h1.2
    have hjtb : ((i ^^^ 2 ^ (n - 1 - qa)) ||| 2 ^ (n - 1 - qb)).testBit
        (n - 1 - qb) = true := testBit_or_two_pow_self _ _
    intro he
    rw [he, hitb] at hjtb
    cases hjtb
  · intro i hi
    have h1 := of_decide_eq_true hi
    have hita : i.testBit (n - 1 - qa) = true :=
      (and_two_pow_ne_zero_iff i _).mp h1.1
    have hitb : i.testBit (n - 1 - qb) = false :=
      (and_two_pow_eq_zero_iff i _).mp h1.2
    have hxtb : (i ^^^ 2 ^ (n - 1 - qa)).testBit (n - 1 - qb) = false := by
      rw [testBit_xor_two_pow_of_ne _ _ _ htba]
      exact hitb
    have h2 : ((i ^^^ 2 ^ (n - 1 - qa)) ||| 2 ^ (n - 1 - qb)) ^^^
        2 ^ (n - 1 - qb) = i ^^^ 2 ^ (n - 1 - qa) :=
      or_xor_cancel_two_pow _ _ hxtb
    simp only [h2]
    exact xor_or_cancel_two_pow i _ hita
  · intro i hilt _
    exact Nat.or_lt_two_pow
      (Nat.xor_lt_two_pow hilt (two_pow_lt_of_bit_lt _ n hta))
      (two_pow_lt_of_bit_lt _ n htb)
  · intro k hk
    exact Nat.or_lt_two_pow
      (Nat.xor_lt_two_pow hk (two_pow_lt_of_bit_lt _ n htb))
      (two_pow_lt_of_bit_lt _ n hta)
  · intro a b
    exact add_comm _ _

/-- Claim C6: each of the eleven gate kernels, applied to valid and pairwise
distinct target qubits, maps a state buffer with Σ|a_i|² = 1 to a state with
|Σ|a_i|² − 1| < 1e-10.  Over the exact reals every kernel preserves Σ|a_i|²
on the nose, so the defect is zero. -/
theorem C6_gate_kernels_preserve_norm :
    (∀ (n q : ℕ) (s : ℕ → ℂ), q < n → sumSq (2 ^ n) s = 1 →
        |sumSq (2 ^ n) (hadamard_apply n q s) - 1| < 1 / 10 ^ 10) ∧
    (∀ (n q : ℕ) (s : ℕ → ℂ), q < n → sumSq (2 ^ n) s = 1 →
        |sumSq (2 ^ n) (pauli_x_apply n q s) - 1| < 1 / 10 ^ 10) ∧
    (∀ (n q : ℕ) (s : ℕ → ℂ), q < n → sumSq (2 ^ n) s = 1 →
        |sumSq (2 ^ n) (pauli_y_apply n q s) - 1| < 1 / 10 ^ 10) ∧
    (∀ (n q : ℕ) (s : ℕ → ℂ), q < n → sumSq (2 ^ n) s = 1 →
        |sumSq (2 ^ n) (pauli_z_apply n q s) - 1| < 1 / 10 ^ 10) ∧
    (∀ (n q : ℕ) (θ : ℝ) (s : ℕ → ℂ), q < n → sumSq (2 ^ n) s = 1 →
        |sumSq (2 ^ n) (rotation_x_apply n q θ s) - 1| < 1 / 10 ^ 10) ∧
    (∀ (n q : ℕ) (θ : ℝ) (s : ℕ → ℂ), q < n → sumSq (2 ^ n) s = 1 →
        |sumSq (2 ^ n) (rotation_y_apply n q θ s) - 1| < 1 / 10 ^ 10) ∧
    (∀ (n q : ℕ) (θ : ℝ) (s : ℕ → ℂ), q < n → sumSq (2 ^ n) s = 1 →
        |sumSq (2 ^ n) (rotation_z_apply n q θ s) - 1| < 1 / 10 ^ 10) ∧
    (∀ (n cq tq : ℕ) (s : ℕ → ℂ), cq < n → tq < n → cq ≠ tq →
        sumSq (2 ^ n) s = 1 →
        |sumSq (2 ^ n) (controlled_not_apply n cq tq s) - 1| < 1 / 10 ^ 10) ∧
    (∀ (n cq tq : ℕ) (θ : ℝ) (s : ℕ → ℂ), cq < n → tq < n → cq ≠ tq →
        sumSq (2 ^ n) s = 1 →
        |sumSq (2 ^ n) (controlled_phase_apply n cq tq θ s) - 1| < 1 / 10 ^ 10) ∧
    (∀ (n qa qb : ℕ) (s : ℕ → ℂ), qa < n → qb < n → qa ≠ qb →
        sumSq (2 ^ n) s = 1 →
        |sumSq (2 ^ n) (swap_apply n qa qb s) - 1| < 1 / 10 ^ 10) ∧
    (∀ (n c1 c2 tq : ℕ) (s : ℕ → ℂ), c1 < n → c2 < n → tq < n →
        c1 ≠ c2 → c1 ≠ tq → c2 ≠ tq → sumSq (2 ^ n) s = 1 →
        |sumSq (2 ^ n) (toffoli_apply n c1 c2 tq s) - 1| < 1 / 10 ^ 10) := by
  refine ⟨?_, ?_, ?_, ?_, ?_, ?_, ?_, ?_, ?_, ?_, ?_⟩
  · intro n q s hq hs
    rw [hadamard_apply_sumSq n q hq s, hs]
    norm_num
  · intro n q s hq hs
    rw [pauli_x_apply_sumSq n q hq s, hs]
    norm_num
  · intro n q s hq hs
    rw [pauli_y_apply_sumSq n q hq s, hs]
    norm_num
  · intro n q s _ hs
    rw [pauli_z_apply_sumSq n q s, hs]
    norm_num
  · intro n q θ s hq hs
    rw [rotation_x_apply_sumSq n q θ hq s, hs]
    norm_num
  · intro n q θ s hq hs
    rw [rotation_y_apply_sumSq n q θ hq s, hs]
    norm_num
  · intro n q θ s _ hs
    rw [rotation_z_apply_sumSq n q θ s, hs]
    norm_num
  · intro n cq tq s _ ht _ hs
    rw [controlled_not_apply_sumSq n cq tq ht s, hs]
    norm_num
  · intro n cq tq θ s _ _ _ hs
    rw [controlled_phase_apply_sumSq n cq tq θ s, hs]
    norm_num
  · intro n qa qb s ha hb hne hs
    rw [swap_apply_sumSq n qa qb ha hb hne s, hs]
    norm_num
  · intro n c1 c2 tq s _ _ ht _ _ _ hs
    rw [toffoli_apply_sumSq n c1 c2 tq ht s, hs]
    norm_num

/-- Witness for C6 at the Pauli-X kernel on the 1-qubit zero state. -/
theorem C6_witness_pauli_x_zero_state :
    |sumSq (2 ^ 1) (pauli_x_apply 1 0 zero_state) - 1| < 1 / 10 ^ 10 :=
  C6_gate_kernels_preserve_norm.2.1 1 0 zero_state (by decide)
    (by simp [sumSq, zero_state, Finset.sum_range_succ])

/-- Pointwise form of any single-target-bit pair kernel guarded by
`i &&& 2^t = 0` with partner `i ||| 2^t`: indices with the bit clear receive
`f` of the pair, indices with the bit set receive `g` of the pair. -/
theorem pairLoop_or_mask_char (n t : ℕ) (ht : t < n) (f g : ℂ → ℂ → ℂ)
    (s : ℕ → ℂ) (k : ℕ) (hk : k < 2 ^ n) :
    pairLoop (2 ^ n) (fun i => decide (i &&& 2 ^ t = 0))
      (fun i => i ||| 2 ^ t) f g s k =
      if k &&& 2 ^ t = 0 then f (s k) (s (k ||| 2 ^ t))
      else g (s (k ^^^ 2 ^ t)) (s k) := by
  have hchar := pairLoop_char (fun i => decide (i &&& 2 ^ t = 0))
    (fun i => i ||| 2 ^ t) (fun k => k ^^^ 2 ^ t) f g
    (by
      intro i hi
      apply decide_eq_false
      rw [and_two_pow_eq_zero_iff, testBit_or_two_pow_self]
      simp)
    (by
      intro i hi
      exact or_two_pow_ne_self i t
        ((and_two_pow_eq_zero_iff i t).mp (of_decide_eq_true hi)))
    (by
      intro i hi
      exact or_xor_cancel_two_pow i t
        ((and_two_pow_eq_zero_iff i t).mp (of_decide_eq_true hi)))
    s (2 ^ n)
  rw [hchar k]
  by_cases hb : k &&& 2 ^ t = 0
  · rw [if_pos ⟨decide_eq_true hb, hk⟩, if_pos hb]
  · rw [if_neg (fun hh => hb (of_decide_eq_true hh.1)), if_neg hb]
    have hbt : k.testBit t = true := (and_two_pow_ne_zero_iff k t).mp hb
    have hpx : (k ^^^ 2 ^ t) &&& 2 ^ t = 0 := by
      rw [and_two_pow_eq_zero_iff, testBit_xor_two_pow_self, hbt]
      rfl
    rw [if_pos ⟨decide_eq_true hpx, xor_or_cancel_two_pow k t hbt,
      Nat.xor_lt_two_pow hk (two_pow_lt_of_bit_lt t n ht)⟩]

/-- Claim C9: applying the Hadamard kernel twice on the same valid target
qubit returns every amplitude to within 1e-10 of its original value (over
the exact reals the composite is the identity, so the distance is zero). -/
theorem C9_hadamard_twice_is_identity (n q : ℕ) (s : ℕ → ℂ) (k : ℕ)
    (hq : q < n) (hk : k < 2 ^ n) :
    Complex.abs (hadamard_apply n q (hadamard_apply n q s) k - s k) <
      1 / 10 ^ 10 := by
  have ht : n - 1 - q < n := target_bit_lt n q hq
  have hww : (((Real.sqrt 2)⁻¹ : ℝ) : ℂ) * (((Real.sqrt 2)⁻¹ : ℝ) : ℂ) =
      (2 : ℂ)⁻¹ := by
    rw [← Complex.ofReal_mul, ← mul_inv, Real.mul_self_sqrt (by norm_num)]
    norm_num
  have hmain : hadamard_apply n q (hadamard_apply n q s) k = s k := by
    unfold hadamard_apply
    rw [pairLoop_or_mask_char n (n - 1 - q) ht _ _ _ k hk]
    by_cases hb : k &&& 2 ^ (n - 1 - q) = 0
    · have hbt : k.testBit (n - 1 - q) = false :=
        (and_two_pow_eq_zero_iff k _).mp hb
      have hjlt : k ||| 2 ^ (n - 1 - q) < 2 ^ n :=
        Nat.or_lt_two_pow hk (two_pow_lt_of_bit_lt _ n ht)
      have hjb : (k ||| 2 ^ (n - 1 - q)) &&& 2 ^ (n - 1 - q) ≠ 0 := by
        rw [Ne, and_two_pow_eq_zero_iff, testBit_or_two_pow_self]
        simp
      rw [if_pos hb]
      rw [pairLoop_or_mask_char n (n - 1 - q) ht _ _ _ k hk, if_pos hb]
      rw [pairLoop_or_mask_char n (n - 1 - q) ht _ _ _ _ hjlt, if_neg hjb]
      rw [or_xor_cancel_two_pow k _ hbt]
      set w : ℂ := (((Real.sqrt 2)⁻¹ : ℝ) : ℂ) with hw
      have hcalc : ((s k + s (k ||| 2 ^ (n - 1 - q))) * w +
          (s k - s (k ||| 2 ^ (n - 1 - q))) * w) * w =
          s k * (2 * (w * w)) := by ring
      rw [hcalc, hww]
      norm_num
    · have hbt : k.testBit (n - 1 - q) = true :=
        (and_two_pow_ne_zero_iff k _).mp hb
      have hplt : k ^^^ 2 ^ (n - 1 - q) < 2 ^ n :=
        Nat.xor_lt_two_pow hk (two_pow_lt_of_bit_lt _ n ht)
      have hpb : (k ^^^ 2 ^ (n - 1 - q)) &&& 2 ^ (n - 1 - q) = 0 := by
        rw [and_two_pow_eq_zero_iff, testBit_xor_two_pow_self, hbt]
        rfl
      rw [if_neg hb]
      rw [pairLoop_or_mask_char n (n - 1 - q) ht _ _ _ _ hplt, if_pos hpb]
      rw [pairLoop_or_mask_char n (n - 1 - q) ht _ _ _ k hk, if_neg hb]
      rw [xor_or_cancel_two_pow k _ hbt]
      set w : ℂ := (((Real.sqrt 2)⁻¹ : ℝ) : ℂ) with hw
      have hcalc : ((s (k ^^^ 2 ^ (n - 1 - q)) + s k) * w -
          (s (k ^^^ 2 ^ (n - 1 - q)) - s k) * w) * w =
          s k * (2 * (w * w)) := by ring
      rw [hcalc, hww]
      norm_num
  rw [hmain]
  simp

/-- Witness for C9 on the 1-qubit zero state at index 0. -/
theorem C9_witness_zero_state :
    Complex.abs (hadamard_apply 1 0 (hadamard_apply 1 0 zero_state) 0 -
      zero_state 0) < 1 / 10 ^ 10 :=
  C9_hadamard_twice_is_identity 1 0 zero_state 0 (by decide) (by decide)

/-- PauliYGate::gate_matrix (gate_operations.rs lines 160-166): the standard
Y matrix [[0, −i], [i, 0]] as a row list, mirroring Vec<Vec<Complex64>>. -/
def pauli_y_gate_matrix : List (List ℂ) :=
  [[complex_new 0 0, complex_new 0 (-1)],
   [complex_new 0 1, complex_new 0 0]]

/-- Entry of a row-list matrix. -/
def mat_entry (M : List (List ℂ)) (r c : ℕ) : ℂ :=
  (M.getD r []).getD c 0

/-- Following the spec's words: the in-place application procedure derived
from a single-qubit gate's 2×2 unitary matrix, acting on each target-qubit
amplitude pair `(a, b) = (s i, s (i | mask))` as `a' = M₀₀a + M₀₁b`,
`b' = M₁₀a + M₁₁b`.  This is the comparison side of the refinement claim,
not a function of the source. -/
def derived_single_qubit_matrix_apply (n q : ℕ) (M : List (List ℂ))
    (s : ℕ → ℂ) : ℕ → ℂ :=
  fun k =>
    if k &&& 2 ^ (n - 1 - q) = 0 then
      mat_entry M 0 0 * s k + mat_entry M 0 1 * s (k ||| 2 ^ (n - 1 - q))
    else
      mat_entry M 1 0 * s (k ^^^ 2 ^ (n - 1 - q)) + mat_entry M 1 1 * s k

theorem complex_new_zero_one : complex_new 0 1 = Complex.I := by
  apply Complex.ext <;> simp [complex_new_re, complex_new_im]

theorem complex_new_zero_neg_one : complex_new 0 (-1) = -Complex.I := by
  apply Complex.ext <;> simp [complex_new_re, complex_new_im]

theorem complex_new_zero_zero : complex_new 0 0 = 0 := by
  apply Complex.ext <;> simp [complex_new_re, complex_new_im]

/-- Claim C5 counterexample: on the 1-qubit zero state, the Pauli-Y kernel
writes −i at index 1 while the procedure derived from gate_matrix writes +i
there — the kernel is not the matrix-derived procedure. -/
theorem C5_counterexample_pauli_y_kernel_differs_from_matrix :
    pauli_y_apply 1 0 zero_state 1 ≠
      derived_single_qubit_matrix_apply 1 0 pauli_y_gate_matrix zero_state 1 := by
  have h1 : pauli_y_apply 1 0 zero_state 1 = complex_new 0 (-1) := by
    unfold pauli_y_apply
    rw [pairLoop_or_mask_char 1 (1 - 1 - 0) (by norm_num) _ _ _ 1 (by norm_num)]
    norm_num [zero_state]
  have h2 : derived_single_qubit_matrix_apply 1 0 pauli_y_gate_matrix
      zero_state 1 = complex_new 0 1 := by
    unfold derived_single_qubit_matrix_apply
    norm_num [mat_entry, pauli_y_gate_matrix, zero_state, complex_new_zero_zero]
  rw [h1, h2, complex_new_zero_one, complex_new_zero_neg_one]
  intro he
  have him := congrArg Complex.im he
  simp at him
  norm_num at him

/-- Claim C5 (amended): the Pauli-Y kernel equals the matrix-derived
procedure multiplied by the global phase −1: at every significant index the
kernel writes exactly the negation of what the gate_matrix application
produces (so the two agree only up to global phase, not as functions). -/
theorem C5_amended_pauli_y_kernel_is_negated_matrix (n q : ℕ) (s : ℕ → ℂ)
    (k : ℕ) (hq : q < n) (hk : k < 2 ^ n) :
    pauli_y_apply n q s k =
      -(derived_single_qubit_matrix_apply n q pauli_y_gate_matrix s k) := by
  unfold pauli_y_apply
  rw [pairLoop_or_mask_char n (n - 1 - q) (target_bit_lt n q hq) _ _ _ k hk]
  unfold derived_single_qubit_matrix_apply
  by_cases hb : k &&& 2 ^ (n - 1 - q) = 0
  · rw [if_pos hb, if_pos hb]
    simp [mat_entry, pauli_y_gate_matrix, complex_new_zero_zero,
      complex_new_zero_one, complex_new_zero_neg_one]
  · rw [if_neg hb, if_neg hb]
    simp [mat_entry, pauli_y_gate_matrix, complex_new_zero_zero,
      complex_new_zero_one, complex_new_zero_neg_one]

/-- Witness for the amended C5 theorem on the 1-qubit zero state, index 0. -/
theorem C5_amended_witness :
    pauli_y_apply 1 0 zero_state 0 =
      -(derived_single_qubit_matrix_apply 1 0 pauli_y_gate_matrix
        zero_state 0) :=
  C5_amended_pauli_y_kernel_is_negated_matrix 1 0 zero_state 0 (by decide)
    (by decide)

/-! ## Measurement sampling (state_backend.rs) and the circuit executor
(execution.rs) -/

/-- QuantumStateVector::probability_distribution (state_backend.rs lines
110-112): the per-basis squared magnitudes. -/
noncomputable def probability_distribution (dim : ℕ) (s : ℕ → ℂ) : List ℝ :=
  (List.range dim).map (fun i => Complex.normSq (s i))

/-- The for-loop of measure_all_deterministic (state_backend.rs lines
116-122): walk the probabilities accumulating their sum; return the current
index the first time `random_value < cumulative`. -/
noncomputable def cumulative_search : List ℝ → ℝ → ℝ → ℕ → Option ℕ
  | [], _, _, _ => none
  | pr :: rest, r, cum, i =>
      if r < cum + pr then some i else cumulative_search rest r (cum + pr) (i + 1)

/-- QuantumStateVector::index_to_bitstring (state_backend.rs lines 126-131):
`(0..n).rev().map(|bit| (index >> bit) & 1)`. -/
def index_to_bitstring (n index : ℕ) : List ℕ :=
  ((List.range n).reverse).map (fun bit => (index >>> bit) &&& 1)

/-- QuantumStateVector::measure_all_deterministic (state_backend.rs lines
114-124): cumulative selection with the all-ones index `dim − 1 = 2^n − 1`
as the fallback after the loop. -/
noncomputable def measure_all_deterministic (n : ℕ) (s : ℕ → ℂ)
    (random_value : ℝ) : List ℕ :=
  match cumulative_search (probability_distribution (2 ^ n) s) random_value 0 0 with
  | some i => index_to_bitstring n i
  | none => index_to_bitstring n (2 ^ n - 1)

theorem cumulative_search_some (l : List ℝ) :
    ∀ (r cum : ℝ) (i0 j : ℕ), cumulative_search l r cum i0 = some j →
      ∃ d, j = i0 + d ∧ d < l.length ∧ r < cum + (l.take (d + 1)).sum ∧
        ∀ m < d, cum + (l.take (m + 1)).sum ≤ r := by
  induction l with
  | nil => intro r cum i0 j h; cases h
  | cons pr rest ih =>
    intro r cum i0 j h
    by_cases hlt : r < cum + pr
    · rw [cumulative_search, if_pos hlt] at h
      refine ⟨0, by cases h; simp, by simp, ?_, ?_⟩
      · simpa using hlt
      · intro m hm
        cases hm
    · rw [cumulative_search, if_neg hlt] at h
      rcases ih r (cum + pr) (i0 + 1) j h with ⟨d', hj, hd', hr, hall⟩
      refine ⟨d' + 1, by omega, by simpa using hd', ?_, ?_⟩
      · calc r < cum + pr + (rest.take (d' + 1)).sum := hr
          _ = cum + ((pr :: rest).take (d' + 1 + 1)).sum := by
            simp [List.take_succ_cons]
            ring
      · intro m hm
        cases m with
        | zero =>
          simpa using le_of_not_lt hlt
        | succ m' =>
          have := hall m' (by omega)
          calc cum + ((pr :: rest).take (m' + 1 + 1)).sum
              = cum + pr + (rest.take (m' + 1)).sum := by
                simp [List.take_succ_cons]
                ring
            _ ≤ r := this

theorem cumulative_search_none (l : List ℝ) :
    ∀ (r cum : ℝ) (i0 : ℕ), cumulative_search l r cum i0 = none →
      ∀ m < l.length, cum + (l.take (m + 1)).sum ≤ r := by
  induction l with
  | nil => intro r cum i0 _ m hm; cases hm
  | cons pr rest ih =>
    intro r cum i0 h m hm
    by_cases hlt : r < cum + pr
    · rw [cumulative_search, if_pos hlt] at h
      cases h
    · rw [cumulative_search, if_neg hlt] at h
      cases m with
      | zero => simpa using le_of_not_lt hlt
      | succ m' =>
        have := ih r (cum + pr) (i0 + 1) h m' (by simpa using hm)
        calc cum + ((pr :: rest).take (m' + 1 + 1)).sum
            = cum + pr + (rest.take (m' + 1)).sum := by
              simp [List.take_succ_cons]
              ring
          _ ≤ r := this

theorem sum_map_range (f : ℕ → ℝ) (m : ℕ) :
    (((List.range m).map f)).sum = ∑ k in Finset.range m, f k := by
  induction m with
  | zero => simp
  | succ m' ih =>
    rw [List.range_succ, List.map_append, List.sum_append,
      Finset.sum_range_succ, ih]
    simp

theorem take_map_range_sum (f : ℕ → ℝ) (dim m : ℕ) (hm : m ≤ dim) :
    (((List.range dim).map f).take m).sum = ∑ k in Finset.range m, f k := by
  rw [← List.map_take, List.take_range, Nat.min_eq_left hm, sum_map_range]

theorem index_to_bitstring_length (n index : ℕ) :
    (index_to_bitstring n index).length = n := by
  simp [index_to_bitstring]

theorem shiftRight_and_one (x i : ℕ) : (x >>> i) &&& 1 = (x.testBit i).toNat := by
  rw [Nat.and_one_is_mod, Nat.shiftRight_eq_div_pow, Nat.testBit_to_div_mod]
  rcases Nat.mod_two_eq_zero_or_one (x / 2 ^ i) with h | h <;> simp [h]

theorem index_to_bitstring_all_ones (n : ℕ) :
    index_to_bitstring n (2 ^ n - 1) = List.replicate n 1 := by
  unfold index_to_bitstring
  refine List.eq_replicate_iff.mpr ⟨by simp, ?_⟩
  intro b hb
  rcases List.mem_map.mp hb with ⟨bit, hbit, hval⟩
  have hbn : bit < n := List.mem_range.mp (List.mem_reverse.mp hbit)
  rw [← hval, shiftRight_and_one, Nat.testBit_two_pow_sub_one]
  simp [hbn]

/-- Claim C10: measure_all_deterministic is total, always returns exactly
`n` bits, selects the first basis index whose cumulative probability
strictly exceeds random_value (every earlier prefix being ≤ random_value),
and falls back to the all-ones basis index `2^n − 1` — the bitstring of all
ones — when no cumulative prefix exceeds it. -/
theorem C10_measure_all_deterministic_characterised (n : ℕ) (s : ℕ → ℂ)
    (r : ℝ) :
    (measure_all_deterministic n s r).length = n ∧
    (∀ i, cumulative_search (probability_distribution (2 ^ n) s) r 0 0 = some i →
        measure_all_deterministic n s r = index_to_bitstring n i ∧
        i < 2 ^ n ∧
        r < ∑ k in Finset.range (i + 1), Complex.normSq (s k) ∧
        ∀ m < i, ∑ k in Finset.range (m + 1), Complex.normSq (s k) ≤ r) ∧
    (cumulative_search (probability_distribution (2 ^ n) s) r 0 0 = none →
        (∀ m < 2 ^ n, ∑ k in Finset.range (m + 1), Complex.normSq (s k) ≤ r) ∧
        measure_all_deterministic n s r = List.replicate n 1) := by
  refine ⟨?_, ?_, ?_⟩
  · unfold measure_all_deterministic
    cases cumulative_search (probability_distribution (2 ^ n) s) r 0 0 with
    | none => exact index_to_bitstring_length n _
    | some i => exact index_to_bitstring_length n i
  · intro i hsearch
    rcases cumulative_search_some _ r 0 0 i hsearch with ⟨d, hd0, hdlt, hr, hall⟩
    have hlen : (probability_distribution (2 ^ n) s).length = 2 ^ n := by
      simp [probability_distribution]
    have hid : i = d := by omega
    subst hid
    rw [hlen] at hdlt
    refine ⟨?_, hdlt, ?_, ?_⟩
    · unfold measure_all_deterministic
      rw [hsearch]
    · have := hr
      rw [zero_add] at this
      rwa [probability_distribution,
        take_map_range_sum _ (2 ^ n) (i + 1) (by omega)] at this
    · intro m hm
      have := hall m hm
      rw [zero_add] at this
      rwa [probability_distribution,
        take_map_range_sum _ (2 ^ n) (m + 1) (by omega)] at this
  · intro hsearch
    have hlen : (probability_distribution (2 ^ n) s).length = 2 ^ n := by
      simp [probability_distribution]
    constructor
    · intro m hm
      have := cumulative_search_none _ r 0 0 hsearch m (by rw [hlen]; exact hm)
      rw [zero_add] at this
      rwa [probability_distribution,
        take_map_range_sum _ (2 ^ n) (m + 1) (by omega)] at this
    · unfold measure_all_deterministic
      rw [hsearch]
      exact index_to_bitstring_all_ones n

/-- Witness for C10: the uniform-looking 1-qubit buffer with both amplitudes
1 and random value 0 selects basis index 0 at once. -/
theorem C10_witness_first_index :
    measure_all_deterministic 1 (fun _ => 1) 0 = index_to_bitstring 1 0 ∧
      0 < 2 ^ 1 ∧
      (0 : ℝ) < ∑ k in Finset.range (0 + 1), Complex.normSq ((fun _ => (1 : ℂ)) k) ∧
      ∀ m < 0, ∑ k in Finset.range (m + 1),
        Complex.normSq ((fun _ => (1 : ℂ)) k) ≤ (0 : ℝ) :=
  (C10_measure_all_deterministic_characterised 1 (fun _ => 1) 0).2.1 0
    (by
      have h1 : probability_distribution (2 ^ 1) (fun _ => (1 : ℂ)) = [1, 1] := by
        norm_num [probability_distribution, List.range_succ]
      rw [h1, cumulative_search]
      norm_num)

/-- Gate-application record of the circuit IR (circuit_program.rs):
a gate kind with its concrete targets and parameter, dispatched to the
kernels of gate_operations.rs. -/
inductive QuantumGate
  | hadamard (q : ℕ)
  | pauliX (q : ℕ)
  | pauliY (q : ℕ)
  | pauliZ (q : ℕ)
  | rotationX (q : ℕ) (θ : ℝ)
  | rotationY (q : ℕ) (θ : ℝ)
  | rotationZ (q : ℕ) (θ : ℝ)
  | controlledNot (c t : ℕ)
  | controlledPhase (c t : ℕ) (θ : ℝ)
  | swapGate (a b : ℕ)
  | toffoli (c1 c2 t : ℕ)

/-- `gate_instance.quantum_gate_interface.apply_to_full_state_vector`:
trait-object dispatch to the kernel of the gate kind. -/
noncomputable def apply_gate (n : ℕ) (g : QuantumGate) (s : ℕ → ℂ) : ℕ → ℂ :=
  match g with
  | .hadamard q => hadamard_apply n q s
  | .pauliX q => pauli_x_apply n q s
  | .pauliY q => pauli_y_apply n q s
  | .pauliZ q => pauli_z_apply n q s
  | .rotationX q θ => rotation_x_apply n q θ s
  | .rotationY q θ => rotation_y_apply n q θ s
  | .rotationZ q θ => rotation_z_apply n q θ s
  | .controlledNot c t => controlled_not_apply n c t s
  | .controlledPhase c t θ => controlled_phase_apply n c t θ s
  | .swapGate a b => swap_apply n a b s
  | .toffoli c1 c2 t => toffoli_apply n c1 c2 t s

/-- QuantumCircuitStructure (circuit_program.rs): qubit count and the
ordered gate-application list. -/
structure QuantumCircuitStructure where
  number_of_quantum_bits : ℕ
  gates : List QuantumGate

/-- ExecutionResult (execution.rs lines 295-304), with the fields the claims
consult; the fresh job UUID is modelled as 0. -/
structure ExecutionResult where
  job_id : ℕ
  measurements : List MeasurementEvent
  final_state : ℕ → ℂ

/-- ExecutionResult::success (execution.rs lines 307-309). -/
def ExecutionResult.success (r : ExecutionResult) : Bool :=
  !r.measurements.isEmpty

/-- ExecutionResult::total_shots (execution.rs lines 311-313). -/
def ExecutionResult.total_shots (r : ExecutionResult) : ℕ :=
  r.measurements.length

/-- CircuitExecutor::execute (execution.rs lines 171-199): build the zero
state, apply every gate in order, then sample `shots` measurements from the
final state (measure_all draws one uniform value per shot; the drawn values
are supplied by the `randoms` oracle).  There is no validation of `shots`
anywhere in the function: its return type is ExecutionResult, not a result
that could carry an error. -/
noncomputable def execute (circuit : QuantumCircuitStructure) (shots : ℕ)
    (randoms : ℕ → ℝ) : ExecutionResult :=
  { job_id := 0
    measurements := (List.range shots).map (fun shot_idx =>
      { job_id := 0
        shot_index := shot_idx
        bits := measure_all_deterministic circuit.number_of_quantum_bits
          (circuit.gates.foldl
            (fun s g => apply_gate circuit.number_of_quantum_bits g s)
            zero_state)
          (randoms shot_idx) })
    final_state := circuit.gates.foldl
      (fun s g => apply_gate circuit.number_of_quantum_bits g s) zero_state }

/-- The Bell circuit [H on 0; CNOT(0,1)] on two qubits. -/
def bell_circuit : QuantumCircuitStructure :=
  { number_of_quantum_bits := 2
    gates := [QuantumGate.hadamard 0, QuantumGate.controlledNot 0 1] }

/-- Claim C4 counterexample: execute with shots = 0 is not rejected — it
returns an ordinary ExecutionResult (the function's type has no error path)
with an empty measurement list and success() = false, instead of an
InvalidShotCount error.  The InvalidShotCount variant exists in error.rs but
is never constructed anywhere in the crate. -/
theorem C4_counterexample_zero_shots_returns_result :
    (execute bell_circuit 0 (fun _ => 0)).measurements = [] ∧
      (execute bell_circuit 0 (fun _ => 0)).success = false := by
  constructor
  · rfl
  · rfl

/-- Claim C4 (amended): execute performs no shot-count validation.  For
every circuit and shot count it returns an ExecutionResult with exactly
`shots` sampled measurements; with shots = 0 the measurement list is empty
and success() is false, and no InvalidShotCount error is produced (the
function cannot return an error). -/
theorem C4_amended_execute_never_validates_shots
    (circuit : QuantumCircuitStructure) (shots : ℕ) (randoms : ℕ → ℝ) :
    (execute circuit shots randoms).measurements.length = shots ∧
      (execute circuit shots randoms).total_shots = shots ∧
      (execute circuit 0 randoms).measurements = [] ∧
      (execute circuit 0 randoms).success = false := by
  refine ⟨?_, ?_, rfl, rfl⟩
  · simp [execute]
  · simp [execute, ExecutionResult.total_shots]
